import Mathlib

/-!
# Verification of the `canvas2toml` repository

A shallow embedding, in Lean 4, of the pure core of the `canvas2toml`
package (`src/canvas2toml/__init__.py` and `src/canvas2toml/cli.py`),
together with theorems settling the specification's claims about it.

Python strings are modelled as `String`/`List Char`; Python `int`/`float`
values produced by `try_int` as the sum type `PyNum` (floats are carried as
exact rationals: every numeric literal the code meets is parsed exactly, and
no claim depends on IEEE-754 rounding); fallible code returns `Option`.
Character classes (`str.isdigit`, `\w`, `str.lower`) are modelled on their
ASCII part; the Unicode extensions of those classes are irrelevant to every
claim below and are noted where they are approximated.
-/

namespace Canvas2Toml

/-! ## Python primitives used by the sources -/

/-- The character set Python's `str.strip()` (no argument) removes: Unicode
whitespace as CPython's `str` implementation classifies it. -/
def isPyStripSpace (c : Char) : Bool :=
  c = ' ' || c = '\t' || c = '\n' || c = '\x0b' || c = '\x0c' || c = '\r' ||
  c = '\x1c' || c = '\x1d' || c = '\x1e' || c = '\x1f' ||
  c = '\x85' || c = '\xa0' || c = ' ' ||
  (0x2000 ≤ c.val && c.val ≤ 0x200a) ||
  c = ' ' || c = ' ' || c = ' ' || c = ' ' || c = '　'

/-- Python `s.strip()` on a character list. -/
def pyStrip (l : List Char) : List Char :=
  ((l.dropWhile isPyStripSpace).reverse.dropWhile isPyStripSpace).reverse

/-- A digit run as Python's `int()`/`float()` literal grammar accepts it:
decimal digits with single underscores allowed between digits.  Returns the
accumulated value, the count of digits seen, and the unconsumed rest.
(Python also accepts non-ASCII Unicode decimals; no claim involves them.) -/
def digitRunCore (acc : ℕ) (cnt : ℕ) : List Char → ℕ × ℕ × List Char
  | [] => (acc, cnt, [])
  | '_' :: c :: cs =>
    if c.isDigit then digitRunCore (acc * 10 + (c.toNat - 48)) (cnt + 1) cs
    else (acc, cnt, '_' :: c :: cs)
  | c :: cs =>
    if c.isDigit then digitRunCore (acc * 10 + (c.toNat - 48)) (cnt + 1) cs
    else (acc, cnt, c :: cs)

/-- A nonempty digit run (first character must be a digit). -/
def digitRun? : List Char → Option (ℕ × ℕ × List Char)
  | [] => none
  | c :: cs =>
    if c.isDigit then some (digitRunCore (c.toNat - 48) 1 cs) else none

/-- Python `int(s)` on an already-stripped string: optional sign, then a
digit run covering the whole string. -/
def pyIntOfString? (l : List Char) : Option ℤ :=
  let core : List Char → Option ℕ := fun t =>
    match digitRun? t with
    | some (v, _, []) => some v
    | _ => none
  match l with
  | '+' :: rest => (core rest).map Int.ofNat
  | '-' :: rest => (core rest).map fun n => -(n : ℤ)
  | rest => (core rest).map Int.ofNat

/-- Python `float(s)` on an already-stripped string, carried exactly as a
rational.  Grammar: optional sign, then `digits [. digits] | . digits`,
then an optional decimal exponent.  (`inf`/`infinity`/`nan`, which Python
also accepts, are not modelled: no claim depends on them, and the abstraction
from IEEE-754 rounding to exact rationals is deliberate.) -/
def pyFloatOfString? (l : List Char) : Option ℚ :=
  let expPart : ℚ → List Char → Option ℚ := fun q t =>
    let signedRun : List Char → Option ℚ := fun u =>
      let run : List Char → Option ℤ := fun v =>
        match digitRun? v with
        | some (e, _, []) => some (e : ℤ)
        | _ => none
      match u with
      | '+' :: r => (run r).map fun e => q * (10 : ℚ) ^ e
      | '-' :: r => (run r).map fun e => q * (10 : ℚ) ^ (-e)
      | r => (run r).map fun e => q * (10 : ℚ) ^ e
    match t with
    | [] => some q
    | 'e' :: r => signedRun r
    | 'E' :: r => signedRun r
    | _ => none
  let fracThenExp : ℚ → List Char → Option ℚ := fun ip t =>
    match digitRun? t with
    | some (fv, fc, r) => expPart (ip + (fv : ℚ) / (10 : ℚ) ^ fc) r
    | none => expPart ip t
  let unsigned : List Char → Option ℚ := fun t =>
    match digitRun? t with
    | some (iv, _, r) =>
      match r with
      | '.' :: r2 => fracThenExp (iv : ℚ) r2
      | _ => expPart (iv : ℚ) r
    | none =>
      match t with
      | '.' :: r2 =>
        match digitRun? r2 with
        | some (fv, fc, r3) => expPart ((fv : ℚ) / (10 : ℚ) ^ fc) r3
        | none => none
      | _ => none
  match l with
  | '+' :: rest => unsigned rest
  | '-' :: rest => (unsigned rest).map Neg.neg
  | rest => unsigned rest

/-- The value `try_int` produces: a Python `int` or `float` (floats exact,
see module comment). -/
inductive PyNum where
  | pInt (n : ℤ)
  | pFloat (q : ℚ)
  deriving DecidableEq, Repr

/-- Python truthiness of a `try_int` result (`0` and `0.0` are falsy). -/
def PyNum.truthy : PyNum → Bool
  | .pInt n => n ≠ 0
  | .pFloat q => q ≠ 0

/-- `try_int` (`__init__.py` lines 22-30): strip, try `int(s)`, then
`float(s)`, and on failure return `0` (an `int`). -/
def try_int (s : String) : PyNum :=
  let t := pyStrip s.data
  match pyIntOfString? t with
  | some n => .pInt n
  | none =>
    match pyFloatOfString? t with
    | some q => .pFloat q
    | none => .pInt 0

/-! ## `name_lf` (`__init__.py` lines 87-91) -/

/-- Python `name.split(" ", 1)`: split at the first space only.  `none`
when the string holds no space; otherwise the parts before and after the
first space. -/
def splitOnceSpace : List Char → Option (List Char × List Char)
  | [] => none
  | c :: cs =>
    if c = ' ' then some ([], cs)
    else (splitOnceSpace cs).map fun p => (c :: p.1, p.2)

/-- `name_lf`: a two-part display name `"First Last"` becomes
`"Last, First"`; a name without a space passes through unchanged. -/
def name_lf (name : String) : String :=
  match splitOnceSpace name.data with
  | some (first, last) => ⟨last⟩ ++ ", " ++ ⟨first⟩
  | none => name

/-- `splitOnceSpace` splits exactly at the first space. -/
theorem splitOnceSpace_append (a b : List Char) (ha : ∀ c ∈ a, c ≠ ' ') :
    splitOnceSpace (a ++ ' ' :: b) = some (a, b) := by
  induction a with
  | nil => simp [splitOnceSpace]
  | cons c cs ih =>
    have hc : c ≠ ' ' := ha c (by simp)
    simp only [List.cons_append, splitOnceSpace, if_neg hc, List.append_eq,
      ih (fun d hd => ha d (by simp [hd]))]
    rfl

/-- A string without a space is left alone by `splitOnceSpace`. -/
theorem splitOnceSpace_eq_none (l : List Char) (h : ∀ c ∈ l, c ≠ ' ') :
    splitOnceSpace l = none := by
  induction l with
  | nil => rfl
  | cons c cs ih =>
    simp only [splitOnceSpace, if_neg (h c (by simp)),
      ih (fun d hd => h d (by simp [hd]))]
    rfl

/-- Shared helper: `name_lf` on a name whose first token `a` is space-free
moves everything after the first space in front. -/
theorem name_lf_split (a rest : String) (ha : ∀ c ∈ a.data, c ≠ ' ') :
    name_lf (a ++ " " ++ rest) = rest ++ ", " ++ a := by
  have hdata : (a ++ " " ++ rest).data = a.data ++ ' ' :: rest.data := by
    simp [String.data_append]
  rw [name_lf, hdata, splitOnceSpace_append a.data rest.data ha]

/-- A name with no space at all passes through `name_lf` unchanged. -/
theorem name_lf_no_space (s : String) (h : ∀ c ∈ s.data, c ≠ ' ') :
    name_lf s = s := by
  rw [name_lf, splitOnceSpace_eq_none s.data h]

/-- C8: numeric coercion.  `try_int` first attempts an integer parse, then a
floating-point parse, and on failure returns `0` (an `int`) rather than
raising; in particular `try_int "12" = 12` (an integer),
`try_int "3.5" = 3.5` (a float), and `try_int "abc" = 0`. -/
theorem claim_C8_try_int_coercion :
    (∀ (s : String) (n : ℤ), pyIntOfString? (pyStrip s.data) = some n →
        try_int s = .pInt n)
    ∧ (∀ (s : String) (q : ℚ), pyIntOfString? (pyStrip s.data) = none →
        pyFloatOfString? (pyStrip s.data) = some q → try_int s = .pFloat q)
    ∧ (∀ s : String, pyIntOfString? (pyStrip s.data) = none →
        pyFloatOfString? (pyStrip s.data) = none → try_int s = .pInt 0)
    ∧ try_int "12" = .pInt 12
    ∧ try_int "3.5" = .pFloat (7 / 2)
    ∧ try_int "abc" = .pInt 0 := by
  refine ⟨fun s n h => ?_, fun s q h1 h2 => ?_, fun s h1 h2 => ?_,
    by decide, ?_, by decide⟩
  · simp only [try_int, h]
  · simp only [try_int, h1, h2]
  · simp only [try_int, h1, h2]
  · have h : try_int "3.5" =
        .pFloat ((((3 : ℕ) : ℚ) + ((5 : ℕ) : ℚ) / (10 : ℚ) ^ (1 : ℕ))) := rfl
    rw [h]
    norm_num

/-- C8 witness: the integer branch of `claim_C8_try_int_coercion` applied at
the concrete input `"12"`. -/
theorem claim_C8_witness : try_int "12" = .pInt 12 :=
  claim_C8_try_int_coercion.1 "12" 12 (by decide)

/-- C9: for a two-part display name `"First Last"` (exactly one space, i.e.
both parts space-free), `name_lf` yields `"Last, First"`; a name containing
no space is returned unchanged. -/
theorem claim_C9_name_lf_transform :
    (∀ first last : String, (∀ c ∈ first.data, c ≠ ' ') →
        (∀ c ∈ last.data, c ≠ ' ') →
        name_lf (first ++ " " ++ last) = last ++ ", " ++ first)
    ∧ (∀ s : String, (∀ c ∈ s.data, c ≠ ' ') → name_lf s = s) :=
  ⟨fun first last hf _ => name_lf_split first last hf,
   fun s h => name_lf_no_space s h⟩

/-- C9 witness: `claim_C9_name_lf_transform` at concrete names. -/
theorem claim_C9_witness :
    name_lf "Jane Doe" = "Doe, Jane" ∧ name_lf "Single" = "Single" :=
  ⟨claim_C9_name_lf_transform.1 "Jane" "Doe" (by decide) (by decide),
   claim_C9_name_lf_transform.2 "Single" (by decide)⟩

/-- C10: `name_lf` splits only at the first space: `name_lf "A B C" = "B C, A"`,
and in general a name whose first token is space-free is keyed by everything
after the first space, not by its final token. -/
theorem claim_C10_name_lf_first_space :
    name_lf "A B C" = "B C, A"
    ∧ (∀ first rest : String, (∀ c ∈ first.data, c ≠ ' ') →
        name_lf (first ++ " " ++ rest) = rest ++ ", " ++ first) :=
  ⟨by decide, fun first rest hf => name_lf_split first rest hf⟩

/-- C10 witness: `claim_C10_name_lf_first_space` applied at a concrete
three-token name. -/
theorem claim_C10_witness : name_lf "Mary Jane Watson" = "Jane Watson, Mary" :=
  claim_C10_name_lf_first_space.2 "Mary" "Jane Watson" (by decide)

/-! ## The upload command (`cli.py`)

`cmd_upload` is IO-driven; its decision structure is embedded over an
environment recording what the filesystem, the parsed TOML and the
interactive prompt supplied.  Remote calls are assumed to succeed (the
batch loop catches per-submission failures and never changes the exit
code), so the set of submissions reaching `update_submission` is a pure
function of the parsed document. -/

/-- Python `s.strip()` on a `String`. -/
def pyStripS (s : String) : String := ⟨pyStrip s.data⟩

/-- One `[[submission]]` table as `tomllib` hands it to `cmd_upload`.
`none` models an absent key (TOML has no null).  Identifier values are
carried already stringified (`_resolve_user_ref` applies `str()` to them);
scores are numbers, comments strings. -/
structure TomlSubmission where
  name : Option String := none
  score : Option PyNum := none
  comment : Option String := none
  comments : Option String := none
  sis_id : Option String := none
  sis_login_id : Option String := none
  canvas_id : Option String := none
  user_id : Option String := none
  id : Option String := none
  deriving DecidableEq, Repr

/-- `_count_valid_submissions` (`cli.py` lines 350-356): a submission counts
when its `score` key is present (and, in Python, not `None` — unrepresentable
in TOML) or its `comment` key is present and truthy (a nonempty string). -/
def countValidSubmissions (subs : List TomlSubmission) : ℕ :=
  (subs.filter fun sub =>
    sub.score.isSome ||
      (match sub.comment with
       | some c => c ≠ ""
       | none => false)).length

/-- `_resolve_user_ref` (`cli.py` lines 359-376): the first of
`sis_id` (prefixed `sis_user_id:`), `sis_login_id` (prefixed
`sis_login_id:`), `canvas_id`, `user_id`, `id` that is present and strips
to a nonempty string. -/
def resolveUserRef (sub : TomlSubmission) : Option String :=
  let sisCand : Option String :=
    match sub.sis_id with
    | some sis =>
      if sis ≠ "" then
        (if pyStripS sis ≠ "" then some ("sis_user_id:" ++ pyStripS sis) else none)
      else none
    | none => none
  let loginCand : Option String :=
    match sub.sis_login_id with
    | some v =>
      if v ≠ "" then
        (if pyStripS v ≠ "" then some ("sis_login_id:" ++ pyStripS v) else none)
      else none
    | none => none
  let keyCand : Option String → Option String := fun o =>
    match o with
    | some v => if pyStripS v ≠ "" then some (pyStripS v) else none
    | none => none
  sisCand <|> loginCand <|> keyCand sub.canvas_id <|>
    keyCand sub.user_id <|> keyCand sub.id

/-- The submissions the batch loop of `cmd_upload` (`cli.py` lines 421-459)
sends to `course.update_submission`, remote calls succeeding: a submission is
skipped only when its user reference is unresolvable or when both `score`
and the effective comment `sub.get("comment", sub.get("comments"))` are
absent.  (Note the asymmetry with `countValidSubmissions`: an *empty* comment
string is ineligible there but not skipped here.) -/
def uploadTargets (subs : List TomlSubmission) : List TomlSubmission :=
  subs.filter fun sub =>
    (resolveUserRef sub).isSome &&
      !(sub.score.isNone && (sub.comment <|> sub.comments).isNone)

/-- What `cmd_upload` (`cli.py` lines 379-462) observes of its environment. -/
structure UploadEnv where
  /-- `_validate_course` returned a `Course` (config file exists and loads). -/
  courseValid : Bool
  /-- `Path(args.input).is_file()`. -/
  inputIsFile : Bool
  /-- `data.get("assignment_id")` of the parsed input TOML. -/
  assignmentId : Option ℤ
  /-- `data.get("submission") or []`. -/
  submissions : List TomlSubmission
  /-- The confirmation reply, stripped and lowercased, was `y` or `yes`. -/
  confirmed : Bool
  deriving Repr

/-- The exit code of `cmd_upload`, following the source's return points in
order (`cli.py` lines 379-462; the batch loop never changes the code). -/
def cmd_upload (e : UploadEnv) : ℤ :=
  if e.courseValid = false then 1
  else if e.inputIsFile = false then 1
  else if e.assignmentId = none then 1
  else if e.submissions = [] then 1
  else if countValidSubmissions e.submissions = 0 then 0
  else if e.confirmed = false then 0
  else 0

/-- A parsed input file with one submission carrying neither score nor
nonempty comment: `[[submission]]` with `id = "1"` only. -/
def c4Env : UploadEnv :=
  { courseValid := true, inputIsFile := true, assignmentId := some 77,
    submissions := [{ id := some "1" }], confirmed := true }

/-- C4 counterexample: on a well-configured run whose input file parses but
contains no eligible submission, `cmd_upload` exits with `0`, not `1` as the
claim states for "no eligible data" (`cli.py` lines 401-403). -/
theorem claim_C4_counterexample :
    c4Env.submissions ≠ [] ∧ countValidSubmissions c4Env.submissions = 0 ∧
      cmd_upload c4Env = 0 := by decide

/-- C4 as amended: `cmd_upload` exits `1` on missing course configuration,
missing input file, missing `assignment_id`, or an empty submission list;
it exits `0` when submissions exist but none is eligible (a benign no-op,
reported with a message), when the confirmation is declined, and on
success. -/
theorem claim_C4_exit_codes (e : UploadEnv) :
    (e.courseValid = false → cmd_upload e = 1)
    ∧ (e.courseValid = true → e.inputIsFile = false → cmd_upload e = 1)
    ∧ (e.courseValid = true → e.inputIsFile = true → e.assignmentId = none →
        cmd_upload e = 1)
    ∧ (e.courseValid = true → e.inputIsFile = true → e.assignmentId ≠ none →
        e.submissions = [] → cmd_upload e = 1)
    ∧ (e.courseValid = true → e.inputIsFile = true → e.assignmentId ≠ none →
        e.submissions ≠ [] → countValidSubmissions e.submissions = 0 →
        cmd_upload e = 0)
    ∧ (e.courseValid = true → e.inputIsFile = true → e.assignmentId ≠ none →
        e.submissions ≠ [] → countValidSubmissions e.submissions ≠ 0 →
        cmd_upload e = 0) := by
  refine ⟨fun h1 => ?_, fun h1 h2 => ?_, fun h1 h2 h3 => ?_,
    fun h1 h2 h3 h4 => ?_, fun h1 h2 h3 h4 h5 => ?_, fun h1 h2 h3 h4 h5 => ?_⟩
  · simp [cmd_upload, h1]
  · simp [cmd_upload, h1, h2]
  · simp [cmd_upload, h1, h2, h3]
  · simp [cmd_upload, h1, h2, h3, h4]
  · simp [cmd_upload, h1, h2, h3, h4, h5]
  · simp [cmd_upload, h1, h2, h3, h4, h5]

/-- A run with no course configuration at all. -/
def c4NoConfigEnv : UploadEnv :=
  { courseValid := false, inputIsFile := false, assignmentId := none,
    submissions := [], confirmed := false }

/-- C4 witness: `claim_C4_exit_codes` applied at concrete environments for a
failure branch and the no-eligible-data branch. -/
theorem claim_C4_witness :
    cmd_upload c4NoConfigEnv = 1 ∧ cmd_upload c4Env = 0 :=
  ⟨(claim_C4_exit_codes c4NoConfigEnv).1 rfl,
   (claim_C4_exit_codes c4Env).2.2.2.2.1 rfl rfl (by decide) (by decide) (by decide)⟩

/-- A submission with a null score and an empty comment (`score` key absent,
  `comment = ""`), but carrying an id. -/
def subEmptyComment : TomlSubmission := { id := some "1", comment := some "" }

/-- A submission with `score = 8`. -/
def subScore8 : TomlSubmission := { id := some "2", score := some (.pInt 8) }

/-- C5: the confirmation count is right (exactly 1 eligible submission in
the claim's two-submission scenario), but the batch loop does not send "only
eligible" submissions: the ineligible one with an empty-string comment is
also sent to `update_submission`, because the loop's skip test
(`score is None and comment is None`, `cli.py` line 425) differs from
`_count_valid_submissions`'s truthiness test.  The progress display
`[{processed}/{valid_count}]` can therefore overrun its denominator. -/
theorem claim_C5_empty_comment_still_uploaded :
    countValidSubmissions [subEmptyComment, subScore8] = 1
    ∧ uploadTargets [subEmptyComment, subScore8] = [subEmptyComment, subScore8]
    ∧ (uploadTargets [subEmptyComment, subScore8]).length ≠
        countValidSubmissions [subEmptyComment, subScore8] := by decide

/-! ## The report-retrieval poller
(`Course.download_quiz_student_analysis`, `__init__.py` lines 463-531)

The remote job queue is modelled by the creation response, the (finite)
sequence of responses the status endpoint would return to successive polls,
and the monotone clock readings `time.time() - start_time` observed at the
top of each loop iteration.  The loop is partial in reality (it can poll
forever if the clock never passes the deadline); running out of modelled
poll responses yields the artificial outcome `outOfResponses`, which no
theorem below relies on. -/

/-- A quiz-report JSON object, reduced to the two fields the poller reads:
`id` and `file` (with its `url`).  `fileUrl = some u` models a `file` dict
whose `url` key holds `u`. -/
structure QuizReport where
  id : Option ℤ := none
  fileUrl : Option String := none
  deriving DecidableEq, Repr

/-- `_has_file` (`__init__.py` lines 501-505): the `file` entry counts only
when it is a dict with a truthy (nonempty) `url`. -/
def hasFileUrl (r : QuizReport) : Option String :=
  match r.fileUrl with
  | some u => if u ≠ "" then some u else none
  | none => none

/-- Python truthiness of `report.get("id")` (`if not report_id`):
absent or zero is falsy. -/
def reportIdTruthy (o : Option ℤ) : Bool :=
  match o with
  | some n => n ≠ 0
  | none => false

/-- The outcome of `download_quiz_student_analysis` after the creation call:
`ready u k` is the successful download of `file.url = u` (exactly one fetch)
after `k` polling GETs; `timedOut` the `TimeoutError`; `missingId` the
`RuntimeError` for a creation response with no pollable id;
`outOfResponses` the model artifact of exhausting the supplied responses. -/
inductive PollOutcome where
  | ready (url : String) (pollsUsed : ℕ)
  | timedOut
  | missingId
  | outOfResponses
  deriving DecidableEq, Repr

/-- The `while not file_info` loop (`__init__.py` lines 508-522): at the top
of iteration `k` it raises `TimeoutError` when the elapsed time exceeds
`timeout`, then `RuntimeError` when there is no truthy report id, then
issues the next poll and breaks when that response carries a `file.url`. -/
def pollLoop (rid : Option ℤ) (timeout : ℚ) (elapsed : ℕ → ℚ) :
    ℕ → List QuizReport → PollOutcome
  | k, polls =>
    if elapsed k > timeout then .timedOut
    else if reportIdTruthy rid = false then .missingId
    else
      match polls with
      | [] => .outOfResponses
      | r :: rest =>
        match hasFileUrl r with
        | some u => .ready u (k + 1)
        | none => pollLoop rid timeout elapsed (k + 1) rest

/-- `download_quiz_student_analysis` after a successful creation call: if the
creation response already carries `file.url` the artifact is fetched with
zero polls; otherwise the polling loop runs with the creation response's
`id`. -/
def downloadQuizStudentAnalysis (creation : QuizReport)
    (polls : List QuizReport) (elapsed : ℕ → ℚ) (timeout : ℚ) : PollOutcome :=
  match hasFileUrl creation with
  | some u => .ready u 0
  | none => pollLoop creation.id timeout elapsed 0 polls

/-- If the job id is truthy, an in-window clock reading exceeds the deadline
and no poll response ever carries a file, the loop raises the timeout
error. -/
theorem pollLoop_timeout (rid : Option ℤ) (timeout : ℚ) (elapsed : ℕ → ℚ) :
    ∀ (polls : List QuizReport) (k : ℕ),
      reportIdTruthy rid = true →
      (∀ r ∈ polls, hasFileUrl r = none) →
      (∃ j, k ≤ j ∧ j ≤ k + polls.length ∧ elapsed j > timeout) →
      pollLoop rid timeout elapsed k polls = .timedOut := by
  intro polls
  induction polls with
  | nil =>
    intro k _ _ ⟨j, hkj, hjk, hj⟩
    have hjk' : j = k := le_antisymm (by simpa using hjk) hkj
    subst hjk'
    rw [pollLoop]
    simp [hj]
  | cons r rest ih =>
    intro k hid hnone ⟨j, hkj, hjk, hj⟩
    by_cases hk : elapsed k > timeout
    · rw [pollLoop]
      simp [hk]
    · have hjne : j ≠ k := fun h => hk (h ▸ hj)
      have hkj' : k + 1 ≤ j := lt_of_le_of_ne hkj (Ne.symm hjne)
      rw [pollLoop]
      rw [hnone r (by simp)]
      simp only [if_neg hk, hid]
      simp only [List.length_cons] at hjk
      have hrec := ih (k + 1) hid (fun x hx => hnone x (by simp [hx]))
        ⟨j, hkj', by omega, hj⟩
      simp [hrec]

/-- If the id is truthy, the clock stays within the deadline through the
pending polls, and the response after `pend` pending polls carries a file,
the loop succeeds with exactly `pend.length + 1` polls. -/
theorem pollLoop_success (rid : Option ℤ) (timeout : ℚ) (elapsed : ℕ → ℚ)
    (u : String) :
    ∀ (pend : List QuizReport) (fin : QuizReport) (k : ℕ),
      reportIdTruthy rid = true →
      (∀ r ∈ pend, hasFileUrl r = none) →
      hasFileUrl fin = some u →
      (∀ j, j ≤ k + pend.length → elapsed j ≤ timeout) →
      pollLoop rid timeout elapsed k (pend ++ [fin]) =
        .ready u (k + pend.length + 1) := by
  intro pend
  induction pend with
  | nil =>
    intro fin k hid _ hfin hcl
    have hk : ¬ elapsed k > timeout := not_lt.mpr (hcl k (by simp))
    rw [List.nil_append, pollLoop]
    rw [hfin]
    simp [hk, hid]
  | cons r rest ih =>
    intro fin k hid hnone hfin hcl
    have hk : ¬ elapsed k > timeout :=
      not_lt.mpr (hcl k (by simp only [List.length_cons]; omega))
    rw [List.cons_append, pollLoop]
    rw [hnone r (by simp)]
    simp only [if_neg hk, hid]
    have hrec := ih fin (k + 1) hid (fun x hx => hnone x (by simp [hx])) hfin
      (fun j hj => hcl j (by simp only [List.length_cons]; omega))
    simp only [List.length_cons]
    rw [show k + (rest.length + 1) + 1 = (k + 1) + rest.length + 1 by omega]
    simpa using hrec

/-- C7: the poller's observable behaviour.
1. A creation response already carrying `file.url` downloads after zero
   polling requests.
2. If the deadline passes (within the supplied responses) before any
   `file.url` appears on a run with a truthy job id, a timeout error is
   raised.
3. A creation response with neither a file reference nor a truthy job id
   raises the missing-identifier error (the first clock reading being within
   the deadline, as it is with the default 120 s timeout).
4. A job id followed by pending polls and then a `file.url`-bearing response
   yields exactly one successful fetch and no timeout error. -/
theorem claim_C7_poller (creation : QuizReport) (polls : List QuizReport)
    (elapsed : ℕ → ℚ) (timeout : ℚ) :
    (∀ u, hasFileUrl creation = some u →
      downloadQuizStudentAnalysis creation polls elapsed timeout = .ready u 0)
    ∧ (hasFileUrl creation = none → reportIdTruthy creation.id = true →
        (∀ r ∈ polls, hasFileUrl r = none) →
        (∃ j, j ≤ polls.length ∧ elapsed j > timeout) →
        downloadQuizStudentAnalysis creation polls elapsed timeout = .timedOut)
    ∧ (hasFileUrl creation = none → reportIdTruthy creation.id = false →
        elapsed 0 ≤ timeout →
        downloadQuizStudentAnalysis creation polls elapsed timeout = .missingId)
    ∧ (∀ (pend : List QuizReport) (fin : QuizReport) (u : String),
        hasFileUrl creation = none → reportIdTruthy creation.id = true →
        polls = pend ++ [fin] →
        (∀ r ∈ pend, hasFileUrl r = none) →
        hasFileUrl fin = some u →
        (∀ j, j ≤ pend.length → elapsed j ≤ timeout) →
        downloadQuizStudentAnalysis creation polls elapsed timeout =
          .ready u (pend.length + 1)) := by
  refine ⟨fun u hu => ?_, fun hnone hid hall hex => ?_, fun hnone hid hcl => ?_,
    fun pend fin u hnone hid hpolls hall hfin hcl => ?_⟩
  · simp [downloadQuizStudentAnalysis, hu]
  · rcases hex with ⟨j, hj1, hj2⟩
    simp only [downloadQuizStudentAnalysis, hnone]
    exact pollLoop_timeout _ _ _ polls 0 hid hall
      ⟨j, Nat.zero_le j, by simpa using hj1, hj2⟩
  · have h0 : ¬ elapsed 0 > timeout := not_lt.mpr hcl
    simp only [downloadQuizStudentAnalysis, hnone]
    rw [pollLoop.eq_def]
    simp [h0, hid]
  · subst hpolls
    simp only [downloadQuizStudentAnalysis, hnone]
    have := pollLoop_success creation.id timeout elapsed u pend fin 0 hid hall
      hfin (fun j hj => hcl j (by simpa using hj))
    simpa using this

/-- A creation response that already carries a file reference. -/
def creationReady : QuizReport := { id := some 5, fileUrl := some "u" }

/-- A creation response with a job id only. -/
def creationPending : QuizReport := { id := some 5 }

/-- A pending poll response (no file yet). -/
def pollPending : QuizReport := { id := some 5 }

/-- A poll response carrying the finished artifact's URL. -/
def pollDone : QuizReport := { id := some 5, fileUrl := some "u" }

/-- A constant clock that never reaches the default 120 s deadline. -/
def clockEarly : ℕ → ℚ := fun _ => 1

/-- A clock that passes the default deadline from the second reading on. -/
def clockLate : ℕ → ℚ := fun k => if k = 0 then 1 else 121

/-- C7 witness: `claim_C7_poller` at concrete runs — immediate file, a
timeout after one pending poll, a missing id, and three pending polls
followed by the file-bearing response (four polls, one fetch). -/
theorem claim_C7_witness :
    downloadQuizStudentAnalysis creationReady [] clockEarly 120 = .ready "u" 0
    ∧ downloadQuizStudentAnalysis creationPending [pollPending] clockLate 120 =
        .timedOut
    ∧ downloadQuizStudentAnalysis { id := none } [] clockEarly 120 = .missingId
    ∧ downloadQuizStudentAnalysis creationPending
        [pollPending, pollPending, pollPending, pollDone] clockEarly 120 =
        .ready "u" 4 :=
  ⟨(claim_C7_poller creationReady [] clockEarly 120).1 "u" (by decide),
   (claim_C7_poller creationPending [pollPending] clockLate 120).2.1 (by decide)
     (by decide) (by decide) ⟨1, by decide, by norm_num [clockLate]⟩,
   (claim_C7_poller { id := none } [] clockEarly 120).2.2.1 (by decide)
     (by decide) (by norm_num [clockEarly]),
   (claim_C7_poller creationPending
       [pollPending, pollPending, pollPending, pollDone] clockEarly 120).2.2.2
     [pollPending, pollPending, pollPending] pollDone "u" (by decide)
     (by decide) rfl (by decide) (by decide)
     (fun j _ => by norm_num [clockEarly])⟩

/-! ## Python string comparison

Python compares strings lexicographically by code point, a shorter strict
prefix comparing smaller; `sorted` uses `<` of the keys and is stable.
`strLtB` is that comparison on character lists. -/

/-- Python `s1 < s2` on character lists: lexicographic by code point. -/
def strLtB : List Char → List Char → Bool
  | [], [] => false
  | [], _ :: _ => true
  | _ :: _, [] => false
  | a :: as, b :: bs =>
    if a.toNat < b.toNat then true
    else if b.toNat < a.toNat then false
    else strLtB as bs

/-- Python `s1 < s2` on strings. -/
def pyStrLt (s t : String) : Bool := strLtB s.data t.data

/-- Python `s1 <= s2` on strings (total order: `¬ (t < s)`). -/
def pyStrLe (s t : String) : Bool := !(pyStrLt t s)

theorem strLtB_asymm :
    ∀ x y : List Char, strLtB x y = true → strLtB y x = false := by
  intro x
  induction x with
  | nil => intro y _; cases y <;> rfl
  | cons a as ih =>
    intro y h
    cases y with
    | nil => simp [strLtB] at h
    | cons b bs =>
      by_cases hab : a.toNat < b.toNat
      · simp [strLtB, hab, Nat.lt_asymm hab]
      · by_cases hba : b.toNat < a.toNat
        · simp [strLtB, hab, hba] at h
        · simp only [strLtB, if_neg hab, if_neg hba] at h
          simp [strLtB, hab, hba, ih bs h]

theorem strLtB_trans :
    ∀ x y z : List Char, strLtB x y = true → strLtB y z = true →
      strLtB x z = true := by
  intro x
  induction x with
  | nil =>
    intro y z hxy hyz
    cases y with
    | nil => simp [strLtB] at hxy
    | cons b bs =>
      cases z with
      | nil => simp [strLtB] at hyz
      | cons c cs => rfl
  | cons a as ih =>
    intro y z hxy hyz
    cases y with
    | nil => simp [strLtB] at hxy
    | cons b bs =>
      cases z with
      | nil => simp [strLtB] at hyz
      | cons c cs =>
        by_cases hab : a.toNat < b.toNat <;> by_cases hbc : b.toNat < c.toNat
        · simp [strLtB, Nat.lt_trans hab hbc]
        · by_cases hcb : c.toNat < b.toNat
          · simp [strLtB, hbc, hcb] at hyz
          · have hbc' : b.toNat = c.toNat := by omega
            simp [strLtB, hbc' ▸ hab]
        · by_cases hba : b.toNat < a.toNat
          · simp [strLtB, hab, hba] at hxy
          · have hab' : a.toNat = b.toNat := by omega
            simp [strLtB, hab' ▸ hbc]
        · by_cases hba : b.toNat < a.toNat
          · simp [strLtB, hab, hba] at hxy
          · by_cases hcb : c.toNat < b.toNat
            · simp [strLtB, hbc, hcb] at hyz
            · have hab' : a.toNat = b.toNat := by omega
              have hbc' : b.toNat = c.toNat := by omega
              simp only [strLtB, if_neg hab, if_neg hba] at hxy
              simp only [strLtB, if_neg hbc, if_neg hcb] at hyz
              have hac : ¬ a.toNat < c.toNat := by omega
              have hca : ¬ c.toNat < a.toNat := by omega
              simp [strLtB, hac, hca, ih bs cs hxy hyz]

theorem strLtB_connex :
    ∀ x y : List Char, strLtB x y = false → strLtB y x = false → x = y := by
  intro x
  induction x with
  | nil => intro y h _; cases y with
    | nil => rfl
    | cons b bs => simp [strLtB] at h
  | cons a as ih =>
    intro y hxy hyx
    cases y with
    | nil => simp [strLtB] at hyx
    | cons b bs =>
      by_cases hab : a.toNat < b.toNat
      · simp [strLtB, hab] at hxy
      · by_cases hba : b.toNat < a.toNat
        · simp [strLtB, hba] at hyx
        · have hn : a.toNat = b.toNat := by omega
          have hv : a = b := Char.eq_of_val_eq (UInt32.ext hn)
          simp only [strLtB, if_neg hab, if_neg hba] at hxy hyx
          rw [hv, ih bs hxy hyx]

theorem pyStrLe_total (s t : String) :
    pyStrLe s t = true ∨ pyStrLe t s = true := by
  simp only [pyStrLe, pyStrLt, Bool.not_eq_true']
  rcases h : strLtB t.data s.data with _ | _
  · exact Or.inl rfl
  · exact Or.inr (strLtB_asymm _ _ h)

theorem pyStrLe_trans (a b c : String) (h1 : pyStrLe a b = true)
    (h2 : pyStrLe b c = true) : pyStrLe a c = true := by
  simp only [pyStrLe, pyStrLt, Bool.not_eq_true'] at h1 h2 ⊢
  rcases h : strLtB c.data a.data with _ | _
  · rfl
  · exfalso
    rcases hcb : strLtB c.data b.data with _ | _
    · rcases hbc : strLtB b.data c.data with _ | _
      · have : b.data = c.data := strLtB_connex _ _ hbc hcb
        rw [← this] at h
        exact absurd h (by simp [h1])
      · have := strLtB_trans _ _ _ hbc h
        exact absurd this (by simp [h1])
    · exact absurd hcb (by simp [h2])

/-! ## Submission ordering (C2)

The quiz document (`generate_quiz_toml`, `__init__.py` lines 141-144) sorts
submission indices by the `name_lf` key; the assignment document
(`cmd_get_assignments`, `cli.py` lines 611-618) sorts submissions by the
pair (lowercased display name, stringified user id).  Python's `sorted` is
a stable sort by `<` on keys; `List.insertionSort` with the corresponding
total preorder is also stable, hence produces the same list. -/

/-- The index order relation of `generate_quiz_toml`:
`key=lambda i: lf_names[i]`. -/
def quizRel (lfNames : List String) (i j : ℕ) : Prop :=
  pyStrLe (lfNames.getD i "") (lfNames.getD j "") = true

instance (lfNames : List String) : DecidableRel (quizRel lfNames) :=
  fun _ _ => instDecidableEqBool _ _

instance (lfNames : List String) : IsTotal ℕ (quizRel lfNames) :=
  ⟨fun _ _ => pyStrLe_total _ _⟩

instance (lfNames : List String) : IsTrans ℕ (quizRel lfNames) :=
  ⟨fun _ _ _ h1 h2 => pyStrLe_trans _ _ _ h1 h2⟩

/-- `order = sorted(range(len(names)), key=lambda i: lf_names[i])`
(`__init__.py` lines 141-142). -/
def quizOrder (names : List String) : List ℕ :=
  List.insertionSort (quizRel (names.map name_lf)) (List.range names.length)

/-- What `cmd_get_assignments` reads of one submission dict for sorting:
`sub.get("name")`, `sub["user"]["name"]`, `sub.get("user_id")`,
`sub.get("id")` (ids already as Canvas returns them, integers). -/
structure ApiSubmission where
  name : Option String := none
  userName : Option String := none
  user_id : Option ℤ := none
  id : Option ℤ := none
  deriving DecidableEq, Repr

/-- Python `a or b` for an optional string `a` (`None` and `""` are falsy). -/
def pyOrStr (a : Option String) (b : String) : String :=
  match a with
  | some x => if x ≠ "" then x else b
  | none => b

/-- `sub.get("name") or user.get("name") or ""`. -/
def displayName (s : ApiSubmission) : String :=
  pyOrStr s.name (pyOrStr s.userName "")

/-- `str(sub.get("user_id") or sub.get("id") or "")` (`0` is falsy). -/
def uidStr (s : ApiSubmission) : String :=
  let second : String :=
    match s.id with
    | some m => if m ≠ 0 then toString m else ""
    | none => ""
  match s.user_id with
  | some n => if n ≠ 0 then toString n else second
  | none => second

/-- Python `str.lower()`, on its ASCII part (`A`-`Z`; the Unicode cases are
irrelevant to every claim). -/
def pyLower (s : String) : String := ⟨s.data.map Char.toLower⟩

/-- `_sort_key` (`cli.py` lines 612-616): `(name.lower(), uid)`. -/
def assignmentSortKey (s : ApiSubmission) : String × String :=
  (pyLower (displayName s), uidStr s)

/-- Python `<=` on the `(name.lower(), uid)` key tuples (lexicographic). -/
def pairLe (a b : String × String) : Bool :=
  if pyStrLt a.1 b.1 then true
  else if pyStrLt b.1 a.1 then false
  else pyStrLe a.2 b.2

/-- The sort relation of `sorted_subs = sorted(submissions, key=_sort_key)`. -/
def assignmentRel (x y : ApiSubmission) : Prop :=
  pairLe (assignmentSortKey x) (assignmentSortKey y) = true

/-- Two strings neither of which is below the other are equal. -/
theorem pyStrLt_connex (x y : String) (hx : pyStrLt x y = false)
    (hy : pyStrLt y x = false) : x = y := by
  have h := strLtB_connex x.data y.data hx hy
  cases x
  cases y
  exact congrArg String.mk h

theorem pairLe_total (a b : String × String) :
    pairLe a b = true ∨ pairLe b a = true := by
  unfold pairLe
  by_cases hab : pyStrLt a.1 b.1 = true
  · left; simp [hab]
  · by_cases hba : pyStrLt b.1 a.1 = true
    · right; simp [hba]
    · have h1 : pyStrLt a.1 b.1 = false := by simpa using hab
      have h2 : pyStrLt b.1 a.1 = false := by simpa using hba
      rcases pyStrLe_total a.2 b.2 with h | h
      · left; simp [h1, h2, h]
      · right; simp [h1, h2, h]

theorem pairLe_trans (a b c : String × String) (h1 : pairLe a b = true)
    (h2 : pairLe b c = true) : pairLe a c = true := by
  unfold pairLe at h1 h2 ⊢
  by_cases hab : pyStrLt a.1 b.1 = true
  · by_cases hbc : pyStrLt b.1 c.1 = true
    · have hac : pyStrLt a.1 c.1 = true :=
        strLtB_trans a.1.data b.1.data c.1.data hab hbc
      simp [hac]
    · have hbc' : pyStrLt b.1 c.1 = false := by simpa using hbc
      have hcb : pyStrLt c.1 b.1 = false := by
        by_contra hcb'
        simp only [Bool.not_eq_false] at hcb'
        simp [hbc', hcb'] at h2
      have hbceq : b.1 = c.1 := pyStrLt_connex _ _ hbc' hcb
      have hac : pyStrLt a.1 c.1 = true := hbceq ▸ hab
      simp [hac]
  · have hab' : pyStrLt a.1 b.1 = false := by simpa using hab
    have hba : pyStrLt b.1 a.1 = false := by
      by_contra hba'
      simp only [Bool.not_eq_false] at hba'
      simp [hab', hba'] at h1
    have habeq : a.1 = b.1 := pyStrLt_connex _ _ hab' hba
    have h1' : pyStrLe a.2 b.2 = true := by simpa [hab', hba] using h1
    by_cases hbc : pyStrLt b.1 c.1 = true
    · have hac : pyStrLt a.1 c.1 = true := habeq ▸ hbc
      simp [hac]
    · have hbc' : pyStrLt b.1 c.1 = false := by simpa using hbc
      have hcb : pyStrLt c.1 b.1 = false := by
        by_contra hcb'
        simp only [Bool.not_eq_false] at hcb'
        simp [hbc', hcb'] at h2
      have h2' : pyStrLe b.2 c.2 = true := by simpa [hbc', hcb] using h2
      have hac : pyStrLt a.1 c.1 = false := habeq ▸ hbc'
      have hca : pyStrLt c.1 a.1 = false := habeq ▸ hcb
      simp [hac, hca, pyStrLe_trans _ _ _ h1' h2']

instance : DecidableRel assignmentRel := fun _ _ => instDecidableEqBool _ _

instance : IsTotal ApiSubmission assignmentRel :=
  ⟨fun _ _ => pairLe_total _ _⟩

instance : IsTrans ApiSubmission assignmentRel :=
  ⟨fun _ _ _ h1 h2 => pairLe_trans _ _ _ h1 h2⟩

/-- `sorted_subs = sorted(submissions, key=_sort_key)` (`cli.py` line 618):
the order in which `cmd_get_assignments` emits `[[submission]]` blocks. -/
def assignmentOrder (subs : List ApiSubmission) : List ApiSubmission :=
  List.insertionSort assignmentRel subs

/-! ## `toml_escape_basic` and `toml_string` (`__init__.py` lines 93-105)

`toml_string` escapes backslashes and quotes, normalises line endings,
splits into paragraphs (`str.splitlines`), word-wraps each paragraph with
`textwrap.fill(p, 80)` and re-joins with `"\n"`; a wrapped text containing a
newline is emitted as a triple-quoted block, otherwise single-quoted.
`textwrap.fill` is Python standard library; it is embedded below at its
default settings (`width=80`, `expand_tabs`, `replace_whitespace`,
`drop_whitespace`, `break_long_words`, `break_on_hyphens`), with the regex
character classes `\w` and `[^\d\W]` taken on their ASCII part. -/

/-- `s.replace("\\", "\\\\")`. -/
def escBackslash : List Char → List Char
  | [] => []
  | c :: cs => if c = '\\' then '\\' :: '\\' :: escBackslash cs else c :: escBackslash cs

/-- `s.replace('"', '\\"')` (applied after `escBackslash`). -/
def escQuote : List Char → List Char
  | [] => []
  | c :: cs => if c = '"' then '\\' :: '"' :: escQuote cs else c :: escQuote cs

/-- `s.replace("\r\n", "\n")`: one left-to-right pass. -/
def normCRLF : List Char → List Char
  | [] => []
  | [c] => [c]
  | c :: d :: cs =>
    if c = '\r' ∧ d = '\n' then '\n' :: normCRLF cs
    else c :: normCRLF (d :: cs)

/-- `toml_escape_basic` (`__init__.py` lines 93-96): escape backslash and
quote, then normalise `\r\n` and `\r` to `\n`. -/
def tomlEscapeBasic (l : List Char) : List Char :=
  (normCRLF (escQuote (escBackslash l))).map fun c => if c = '\r' then '\n' else c

/-- The line boundaries of Python `str.splitlines`. -/
def isLineBreak (c : Char) : Bool :=
  c = '\n' || c = '\r' || c = '\x0b' || c = '\x0c' ||
  c = '\x1c' || c = '\x1d' || c = '\x1e' || c = '\x85' ||
  c = ' ' || c = ' '

/-- After a `\r` boundary, a directly following `\n` belongs to the same
boundary (`\r\n`). -/
def afterCR : List Char → List Char
  | [] => []
  | d :: cs => if d = '\n' then cs else d :: cs

/-- One line of `str.splitlines`: the prefix before the first boundary, and
the rest after it (`none` when the text ends without a boundary; `\r\n`
counts as one boundary). -/
def takeLine : List Char → List Char × Option (List Char)
  | [] => ([], none)
  | c :: cs =>
    if c = '\r' then ([], some (afterCR cs))
    else if isLineBreak c then ([], some cs)
    else
      let p := takeLine cs
      (c :: p.1, p.2)

/-- `str.splitlines` (fuel-driven so that concrete values reduce in the
kernel; any fuel of at least `l.length + 1` is enough, and every theorem
below holds for all fuels). -/
def pySplitlinesGo (fuel : ℕ) (l : List Char) : List (List Char) :=
  match fuel with
  | 0 => []
  | fuel + 1 =>
    match l with
    | [] => []
    | c :: cs =>
      match takeLine (c :: cs) with
      | (ln, none) => [ln]
      | (ln, some rest) => ln :: pySplitlinesGo fuel rest

/-- `str.splitlines` (the empty string yields no lines). -/
def pySplitlines (l : List Char) : List (List Char) :=
  pySplitlinesGo (l.length + 1) l

/-! ### `textwrap.fill` at its default settings -/

/-- `textwrap`'s whitespace set `'\t\n\x0b\x0c\r '`. -/
def isWsChar (c : Char) : Bool :=
  c = ' ' || c = '\t' || c = '\n' || c = '\x0b' || c = '\x0c' || c = '\r'

/-- `\w` of the wrap regex, on its ASCII part. -/
def isWordChar (c : Char) : Bool := c.isAlphanum || c = '_'

/-- `[^\d\W]` (a word character that is not a digit), on its ASCII part. -/
def isLetterChar (c : Char) : Bool := c.isAlpha || c = '_'

/-- The `word_punct` class `[\w!"'&.,?]` of the wrap regex. -/
def isWordPunct (c : Char) : Bool :=
  isWordChar c || c = '!' || c = '"' || c = '\'' || c = '&' || c = '.' ||
    c = ',' || c = '?'

/-- `str.expandtabs(8)`: tabs advance to the next multiple of eight; the
column resets on `\n`/`\r` and advances one per other character. -/
def expandTabsGo (col : ℕ) : List Char → List Char
  | [] => []
  | c :: cs =>
    if c = '\t' then
      let n := 8 - col % 8
      List.replicate n ' ' ++ expandTabsGo (col + n) cs
    else if c = '\n' ∨ c = '\r' then c :: expandTabsGo 0 cs
    else c :: expandTabsGo (col + 1) cs

/-- `_munge_whitespace`: expand tabs, then translate each character of
`'\t\n\x0b\x0c\r '` to a space. -/
def mungeWhitespace (l : List Char) : List Char :=
  (expandTabsGo 0 l).map fun c => if isWsChar c then ' ' else c

/-- Lookbehind `(?<=[\w!"'&.,?])` at the position whose reversed prefix is
`rev`. -/
def lbWordPunct (rev : List Char) : Bool :=
  match rev with
  | a :: _ => isWordPunct a
  | [] => false

/-- Lookbehind of the hyphenated-word branch,
`(?<=[^\d\W]{2}-)|(?<=[^\d\W]-[^\d\W]-)`, against the reversed prefix. -/
def hyphLookbehind (rev : List Char) : Bool :=
  (match rev with
   | '-' :: b :: a :: _ => isLetterChar b && isLetterChar a
   | _ => false) ||
  (match rev with
   | '-' :: b :: '-' :: a :: _ => isLetterChar b && isLetterChar a
   | _ => false)

/-- Lookahead of the hyphenated-word branch, `(?=[^\d\W]-?[^\d\W])`. -/
def hyphLookahead (l : List Char) : Bool :=
  match l with
  | a :: b :: rest =>
    isLetterChar a &&
      (if b = '-' then
        match rest with
        | c :: _ => isLetterChar c
        | [] => false
      else isLetterChar b)
  | _ => false

/-- Length of the maximal hyphen run at the head. -/
def hyphenRunLen : List Char → ℕ
  | '-' :: cs => hyphenRunLen cs + 1
  | _ => 0

/-- Lookahead `(?=-{2,}\w)`: a maximal run of at least two hyphens followed
by a word character. -/
def emdashAhead (l : List Char) : Bool :=
  let r := hyphenRunLen l
  decide (2 ≤ r) &&
    (match l.drop r with
     | d :: _ => isWordChar d
     | [] => false)

/-- The minimal-match scan of the word alternative
`[^ws]+?(?:-?(?:lookbehinds)(?=la)|(?=ws|end)|(?<=wp)(?=-{2,}\w))`:
at boundary `e` (reversed prefix `rev`, remainder `l`, at least one word
character consumed) the continuations are tried in the regex's order; on
failure the word extends by one character.  Returns how many characters
beyond the boundary the match still consumes. -/
def wordScan : List Char → List Char → ℕ
  | rev, l =>
    if (match l with
        | '-' :: l2 => hyphLookbehind ('-' :: rev) && hyphLookahead l2
        | _ => false) then 1
    else if hyphLookbehind rev && hyphLookahead l then 0
    else
      match l with
      | [] => 0
      | c :: cs =>
        if isWsChar c then 0
        else if lbWordPunct rev && emdashAhead l then 0
        else wordScan (c :: rev) cs + 1

/-- Length of the first chunk of `wordsep_re.split` at a position with
reversed prefix `rev` and remainder `l` (nonempty): a whitespace run, an
em-dash run between words, or a word ended by the minimal-match scan. -/
def firstChunkLen (rev : List Char) (l : List Char) : ℕ :=
  match l with
  | [] => 0
  | c :: cs =>
    if isWsChar c then (cs.takeWhile isWsChar).length + 1
    else
      let r := hyphenRunLen (c :: cs)
      if decide (2 ≤ r) && lbWordPunct rev &&
          (match (c :: cs).drop r with
           | d :: _ => isWordChar d
           | [] => false) then r
      else wordScan (c :: rev) cs + 1

/-- `_split` (the chunking of `wordsep_re.split`), fuel-driven; chunks
partition the text. -/
def splitChunksGo (fuel : ℕ) (rev l : List Char) : List (List Char) :=
  match fuel with
  | 0 => []
  | fuel + 1 =>
    match l with
    | [] => []
    | c :: cs =>
      let k := firstChunkLen rev (c :: cs)
      (c :: cs).take k ::
        splitChunksGo fuel (((c :: cs).take k).reverse ++ rev) ((c :: cs).drop k)

/-- `_split` of `textwrap`. -/
def splitChunks (l : List Char) : List (List Char) :=
  splitChunksGo (l.length + 1) [] l

/-- `chunk.strip() == ''`: every character is Python whitespace. -/
def chunkIsWs (c : List Char) : Bool := c.all isPyStripSpace

/-- Sum of chunk lengths. -/
def sumLen (cs : List (List Char)) : ℕ := (cs.map List.length).sum

/-- The inner `while` of `_wrap_chunks`: greedily take chunks while the line
stays within `width`.  Returns the taken chunks and the rest. -/
def takeFit (width curLen : ℕ) : List (List Char) → List (List Char) × List (List Char)
  | [] => ([], [])
  | c :: cs =>
    if curLen + c.length ≤ width then
      let (t, r) := takeFit width (curLen + c.length) cs
      (c :: t, r)
    else ([], c :: cs)

/-- `str.rfind(ch, 0, len)`: the highest index of `ch`, or `-1`. -/
def pyRfind (ch : Char) : List Char → ℤ
  | [] => -1
  | c :: cs =>
    let r := pyRfind ch cs
    if 0 ≤ r then r + 1
    else if c = ch then 0 else -1

/-- `_handle_long_word` with `break_long_words=True, break_on_hyphens=True`:
split the over-long chunk at the space left on the line, preferring the last
in-window hyphen when the chunk has one (preceded by a non-hyphen).
Returns the piece for the current line and the remainder chunk. -/
def handleLongWord (width curLen : ℕ) (c : List Char) : List Char × List Char :=
  let spaceLeft := if width < 1 then 1 else width - curLen
  let hyphen := pyRfind '-' (c.take spaceLeft)
  let e :=
    if spaceLeft < c.length then
      if 0 < hyphen ∧ (c.take hyphen.toNat).any (· ≠ '-') = true then
        hyphen.toNat + 1
      else spaceLeft
    else spaceLeft
  (c.take e, c.drop e)

/-- One iteration of the outer loop of `_wrap_chunks` (`width=80`, both
indents empty, `drop_whitespace=True`): drop a leading whitespace chunk
(once a line exists), take chunks greedily, split an over-long next chunk,
drop a trailing whitespace chunk; the emitted line (if any) and the
remaining chunks. -/
def wrapStep (width : ℕ) (hasLines : Bool) :
    List (List Char) → Option (List Char) × List (List Char)
  | [] => (none, [])
  | c0 :: rest0 =>
    let chunks1 := if hasLines && chunkIsWs c0 then rest0 else c0 :: rest0
    let tr := takeFit width 0 chunks1
    let cur2rest2 :=
      match tr.2 with
      | d :: ds =>
        if width < d.length then
          let pr := handleLongWord width (sumLen tr.1) d
          (tr.1 ++ [pr.1], pr.2 :: ds)
        else (tr.1, tr.2)
      | [] => (tr.1, ([] : List (List Char)))
    let cur3 :=
      match cur2rest2.1.getLast? with
      | some lastC => if chunkIsWs lastC then cur2rest2.1.dropLast else cur2rest2.1
      | none => cur2rest2.1
    (match cur3 with
     | [] => none
     | _ => some cur3.flatten, cur2rest2.2)

/-- The outer loop of `_wrap_chunks`.  `acc` holds the lines built so far,
most recent first. -/
def wrapGo (width fuel : ℕ) (acc : List (List Char)) :
    List (List Char) → List (List Char)
  | chunks =>
    match fuel with
    | 0 => acc.reverse
    | fuel + 1 =>
      match chunks with
      | [] => acc.reverse
      | c0 :: rest0 =>
        match wrapStep width (!acc.isEmpty) (c0 :: rest0) with
        | (none, rest) => wrapGo width fuel acc rest
        | (some line, rest) => wrapGo width fuel (line :: acc) rest

/-- The wrapped lines of one paragraph: `TextWrapper(width).wrap(p)`.  The
fuel bound `sumLen + count + 1` strictly exceeds the loop's termination
measure, so the `fuel = 0` branch is never taken on these inputs. -/
def wrapLines (width : ℕ) (p : List Char) : List (List Char) :=
  let chunks := splitChunks (mungeWhitespace p)
  wrapGo width (sumLen chunks + chunks.length + 1) [] chunks

/-- `"\n".join(...)` on character lists. -/
def joinNL : List (List Char) → List Char
  | [] => []
  | [x] => x
  | x :: y :: t => x ++ '\n' :: joinNL (y :: t)

/-- `textwrap.fill(p, width)`: the wrapped lines joined with `"\n"`. -/
def pyFill (width : ℕ) (p : List Char) : List Char :=
  joinNL (wrapLines width p)

/-- The escaped and word-wrapped form of `s`:
`'\n'.join(textwrap.fill(p, 80) for p in toml_escape_basic(s).splitlines())`
(`__init__.py` line 99). -/
def wrappedText (s : String) : String :=
  ⟨joinNL ((pySplitlines (tomlEscapeBasic s.data)).map (pyFill 80))⟩

/-- `s.replace('"""', '\\"""')`: a backslash before each (left-to-right,
non-overlapping) triple-quote occurrence. -/
def replaceTripleQuote : List Char → List Char
  | '"' :: '"' :: '"' :: cs => '\\' :: '"' :: '"' :: '"' :: replaceTripleQuote cs
  | c :: cs => c :: replaceTripleQuote cs
  | [] => []

/-- `toml_string` (`__init__.py` lines 98-105).  In the triple-quoted branch
the source computes `esc = s.replace('\x22\x22\x22', ...)` and then returns
the unmodified `s`; the dead binding is reproduced. -/
def tomlString (s : String) : String :=
  let w := wrappedText s
  if w.data.contains '\n' then
    let esc := replaceTripleQuote w.data
    "\"\"\"\n" ++ w ++ "\n\"\"\""
  else "\"" ++ w ++ "\""

/-! ### Wrapping lemmas: line length and line provenance -/

theorem takeFit_append (width : ℕ) :
    ∀ (curLen : ℕ) (cs : List (List Char)),
      (takeFit width curLen cs).1 ++ (takeFit width curLen cs).2 = cs := by
  intro curLen cs
  induction cs generalizing curLen with
  | nil => rfl
  | cons c cs ih =>
    by_cases h : curLen + c.length ≤ width
    · simp [takeFit, h, ih]
    · simp [takeFit, h]

theorem takeFit_sumLen (width : ℕ) :
    ∀ (curLen : ℕ) (cs : List (List Char)), curLen ≤ width →
      curLen + sumLen (takeFit width curLen cs).1 ≤ width := by
  intro curLen cs
  induction cs generalizing curLen with
  | nil => intro h; simpa [takeFit, sumLen] using h
  | cons c cs ih =>
    intro h
    by_cases hc : curLen + c.length ≤ width
    · have := ih (curLen + c.length) hc
      simp only [takeFit, if_pos hc]
      simp only [sumLen, List.map_cons, List.sum_cons] at this ⊢
      omega
    · simpa [takeFit, hc, sumLen] using h

theorem pyRfind_lt_length (ch : Char) :
    ∀ l : List Char, 0 ≤ pyRfind ch l → pyRfind ch l < (l.length : ℤ) := by
  intro l
  induction l with
  | nil => intro h; simp [pyRfind] at h
  | cons c cs ih =>
    intro _
    by_cases h : 0 ≤ pyRfind ch cs
    · have := ih h
      simp only [pyRfind, if_pos h, List.length_cons]
      push_cast
      omega
    · simp only [pyRfind, if_neg h]
      by_cases hc : c = ch
      · simp only [if_pos hc, List.length_cons]
        positivity
      · simp only [if_neg hc, List.length_cons]
        omega

theorem handleLongWord_append (width curLen : ℕ) (c : List Char) :
    (handleLongWord width curLen c).1 ++ (handleLongWord width curLen c).2 = c := by
  simp [handleLongWord, List.take_append_drop]

theorem handleLongWord_length (width curLen : ℕ) (c : List Char)
    (hk : curLen ≤ width) (hw : 1 ≤ width) :
    (handleLongWord width curLen c).1.length ≤ width - curLen := by
  unfold handleLongWord
  have hw1 : ¬ width < 1 := by omega
  simp only [if_neg hw1]
  set spaceLeft := width - curLen with hspdef
  by_cases hbig : spaceLeft < c.length
  · simp only [if_pos hbig]
    by_cases hhy : 0 < pyRfind '-' (c.take spaceLeft) ∧
        (c.take (pyRfind '-' (c.take spaceLeft)).toNat).any (· ≠ '-') = true
    · have h1 := pyRfind_lt_length '-' (c.take spaceLeft) (le_of_lt hhy.1)
      have h2 : (c.take spaceLeft).length ≤ spaceLeft := by
        simp [List.length_take]
      have h3 : (pyRfind '-' (c.take spaceLeft)).toNat + 1 ≤ spaceLeft := by
        have := hhy.1
        omega
      simp only [if_pos hhy]
      calc (c.take ((pyRfind '-' (c.take spaceLeft)).toNat + 1)).length
          ≤ (pyRfind '-' (c.take spaceLeft)).toNat + 1 := by
            simp [List.length_take]
        _ ≤ spaceLeft := h3
    · simp only [if_neg hhy]
      simp [List.length_take]
  · simp only [if_neg hbig]
    simp [List.length_take]

theorem sumLen_append (a b : List (List Char)) :
    sumLen (a ++ b) = sumLen a + sumLen b := by
  simp [sumLen]

theorem sumLen_dropLast_le (l : List (List Char)) :
    sumLen l.dropLast ≤ sumLen l := by
  rcases List.eq_nil_or_concat l with h | ⟨l', a, h⟩
  · simp [h]
  · subst h
    simp [List.dropLast_concat, sumLen_append, sumLen]

/-- The emitted line of one `wrapStep` never exceeds the width. -/
theorem wrapStep_line_length (width : ℕ) (hw : 1 ≤ width) (hasLines : Bool)
    (chunks : List (List Char)) (line : List Char)
    (h : (wrapStep width hasLines chunks).1 = some line) :
    line.length ≤ width := by
  match chunks with
  | [] => simp [wrapStep] at h
  | c0 :: rest0 =>
    rw [wrapStep] at h
    set chunks1 := if hasLines && chunkIsWs c0 then rest0 else c0 :: rest0 with hc1
    set tr := takeFit width 0 chunks1 with htr
    have hsum1 : sumLen tr.1 ≤ width := by
      have := takeFit_sumLen width 0 chunks1 (by omega)
      simpa using this
    set cur2rest2 :=
      match tr.2 with
      | d :: ds =>
        if width < d.length then
          let pr := handleLongWord width (sumLen tr.1) d
          (tr.1 ++ [pr.1], pr.2 :: ds)
        else (tr.1, tr.2)
      | [] => (tr.1, ([] : List (List Char))) with hc2
    have hsum2 : sumLen cur2rest2.1 ≤ width := by
      rw [hc2]
      match htr2 : tr.2 with
      | [] => simpa using hsum1
      | d :: ds =>
        by_cases hlong : width < d.length
        · simp only [if_pos hlong]
          have hpl := handleLongWord_length width (sumLen tr.1) d hsum1 hw
          rw [sumLen_append]
          have : sumLen [(handleLongWord width (sumLen tr.1) d).1] =
              (handleLongWord width (sumLen tr.1) d).1.length := by
            simp [sumLen]
          rw [this]
          omega
        · simpa [if_neg hlong] using hsum1
    set cur3 :=
      match cur2rest2.1.getLast? with
      | some lastC => if chunkIsWs lastC then cur2rest2.1.dropLast else cur2rest2.1
      | none => cur2rest2.1 with hc3
    have hsum3 : sumLen cur3 ≤ width := by
      rw [hc3]
      match cur2rest2.1.getLast? with
      | some lastC =>
        by_cases hws : chunkIsWs lastC = true
        · simp only [if_pos hws]
          exact le_trans (sumLen_dropLast_le _) hsum2
        · simpa [hws] using hsum2
      | none => exact hsum2
    match hcc : cur3 with
    | [] => simp [hcc] at h
    | x :: xs =>
      simp only [hcc] at h
      have : line = (x :: xs).flatten := by
        cases h
        rfl
      rw [this]
      have hlen : ((x :: xs).flatten).length = sumLen (x :: xs) := by
        simp [sumLen, List.length_flatten]
      rw [hlen]
      exact hsum3

/-- Every line `wrapGo` emits (beyond the accumulator) fits the width. -/
theorem wrapGo_line_length (width : ℕ) (hw : 1 ≤ width) :
    ∀ (fuel : ℕ) (acc chunks : List (List Char)),
      (∀ m ∈ acc, m.length ≤ width) →
      ∀ m ∈ wrapGo width fuel acc chunks, m.length ≤ width := by
  intro fuel
  induction fuel with
  | zero =>
    intro acc chunks hacc m hm
    rw [wrapGo] at hm
    exact hacc m (List.mem_reverse.mp hm)
  | succ fuel ih =>
    intro acc chunks hacc m hm
    match chunks with
    | [] =>
      rw [wrapGo] at hm
      exact hacc m (List.mem_reverse.mp hm)
    | c0 :: rest0 =>
      rw [wrapGo] at hm
      rcases hws : wrapStep width (!acc.isEmpty) (c0 :: rest0) with ⟨lineOpt, rest⟩
      rw [hws] at hm
      cases lineOpt with
      | none => exact ih acc rest hacc m hm
      | some line =>
        have hfst : (wrapStep width (!acc.isEmpty) (c0 :: rest0)).1 = some line := by
          rw [hws]
        have hline := wrapStep_line_length width hw (!acc.isEmpty) (c0 :: rest0)
          line hfst
        refine ih (line :: acc) rest ?_ m hm
        intro x hx
        rcases List.mem_cons.mp hx with h | h
        · exact h ▸ hline
        · exact hacc x h

/-- One `wrapStep` splits the flattened chunks into a dropped prefix, the
current-line region, and the remaining chunks; the emitted line is a prefix
of the current-line region. -/
theorem wrapStep_decomp (width : ℕ) (hasLines : Bool)
    (chunks : List (List Char)) :
    ∃ u mid : List Char,
      u ++ (mid ++ (wrapStep width hasLines chunks).2.flatten) = chunks.flatten ∧
      ∀ line, (wrapStep width hasLines chunks).1 = some line →
        ∃ t, line ++ t = mid := by
  match chunks with
  | [] => exact ⟨[], [], by simp [wrapStep], by simp [wrapStep]⟩
  | c0 :: rest0 =>
    rw [wrapStep]
    set chunks1 := if hasLines && chunkIsWs c0 then rest0 else c0 :: rest0 with hc1
    set tr := takeFit width 0 chunks1 with htr
    set cur2rest2 :=
      match tr.2 with
      | d :: ds =>
        if width < d.length then
          let pr := handleLongWord width (sumLen tr.1) d
          (tr.1 ++ [pr.1], pr.2 :: ds)
        else (tr.1, tr.2)
      | [] => (tr.1, ([] : List (List Char))) with hc2
    have hsplit : cur2rest2.1.flatten ++ cur2rest2.2.flatten = chunks1.flatten := by
      have htf : tr.1 ++ tr.2 = chunks1 := takeFit_append width 0 chunks1
      have hflat : tr.1.flatten ++ tr.2.flatten = chunks1.flatten := by
        rw [← List.flatten_append, htf]
      rw [hc2]
      match htr2 : tr.2 with
      | [] =>
        rw [← hflat, htr2]
      | d :: ds =>
        by_cases hlong : width < d.length
        · simp only [if_pos hlong]
          have hh := handleLongWord_append width (sumLen tr.1) d
          rw [← hflat, htr2]
          have key : ∀ (A : List (List Char)) (p q : List Char)
              (es : List (List Char)),
              (A ++ [p]).flatten ++ (q :: es).flatten =
                A.flatten ++ ((p ++ q) :: es).flatten := by
            intro A p q es
            simp [List.append_assoc]
          rw [key tr.1 (handleLongWord width (sumLen tr.1) d).1
            (handleLongWord width (sumLen tr.1) d).2 ds, hh]
        · simp only [if_neg hlong]
          rw [← hflat, htr2]
    set cur3 :=
      match cur2rest2.1.getLast? with
      | some lastC => if chunkIsWs lastC then cur2rest2.1.dropLast else cur2rest2.1
      | none => cur2rest2.1 with hc3
    have hpref : ∃ t0, cur3.flatten ++ t0 = cur2rest2.1.flatten := by
      rw [hc3]
      match cur2rest2.1.getLast? with
      | some lastC =>
        by_cases hws : chunkIsWs lastC = true
        · simp only [if_pos hws]
          rcases List.eq_nil_or_concat cur2rest2.1 with h | ⟨l', a, h⟩
          · exact ⟨[], by simp [h]⟩
          · refine ⟨a, ?_⟩
            rw [h]
            simp
        · exact ⟨[], by simp [hws]⟩
      | none => exact ⟨[], by simp⟩
    have hdrop : ∃ u, u ++ chunks1.flatten = (c0 :: rest0).flatten := by
      rw [hc1]
      by_cases hd : (hasLines && chunkIsWs c0) = true
      · exact ⟨c0, by simp [hd]⟩
      · exact ⟨[], by simp [hd]⟩
    rcases hdrop with ⟨u, hu⟩
    refine ⟨u, cur2rest2.1.flatten, ?_, ?_⟩
    · rw [hsplit, hu]
    · intro line hline
      rcases hpref with ⟨t0, ht0⟩
      match hcc : cur3 with
      | [] => simp [hcc] at hline
      | x :: xs =>
        simp only [hcc] at hline
        have : line = (x :: xs).flatten := by
          cases hline
          rfl
        refine ⟨t0, ?_⟩
        rw [this]
        exact ht0

/-- Every line `wrapGo` emits (beyond the accumulator) is a contiguous
substring of the flattened chunks. -/
theorem wrapGo_line_infix (width : ℕ) :
    ∀ (fuel : ℕ) (acc chunks : List (List Char)),
      ∀ m ∈ wrapGo width fuel acc chunks,
        m ∈ acc ∨ ∃ u v, u ++ (m ++ v) = chunks.flatten := by
  intro fuel
  induction fuel with
  | zero =>
    intro acc chunks m hm
    rw [wrapGo] at hm
    exact Or.inl (List.mem_reverse.mp hm)
  | succ fuel ih =>
    intro acc chunks m hm
    match chunks with
    | [] =>
      rw [wrapGo] at hm
      exact Or.inl (List.mem_reverse.mp hm)
    | c0 :: rest0 =>
      rw [wrapGo] at hm
      rcases hws : wrapStep width (!acc.isEmpty) (c0 :: rest0) with ⟨lineOpt, rest⟩
      rw [hws] at hm
      rcases wrapStep_decomp width (!acc.isEmpty) (c0 :: rest0) with
        ⟨u, mid, hflat, hline⟩
      rw [hws] at hflat hline
      simp only at hflat hline
      have hrest : ∀ x, (∃ p q, p ++ (x ++ q) = rest.flatten) →
          ∃ p q, p ++ (x ++ q) = (c0 :: rest0).flatten := by
        rintro x ⟨p, q, hpq⟩
        refine ⟨u ++ mid ++ p, q, ?_⟩
        rw [← hflat, ← hpq]
        simp [List.append_assoc]
      cases lineOpt with
      | none =>
        rcases ih acc rest m hm with h | h
        · exact Or.inl h
        · exact Or.inr (hrest m h)
      | some line =>
        rcases ih (line :: acc) rest m hm with h | h
        · rcases List.mem_cons.mp h with h' | h'
          · subst h'
            rcases hline m rfl with ⟨t, ht⟩
            refine Or.inr ⟨u, t ++ rest.flatten, ?_⟩
            rw [← hflat, ← ht]
            simp [List.append_assoc]
          · exact Or.inl h'
        · exact Or.inr (hrest m h)

/-! ### Absence of double quotes: the escape invariant -/

/-- Whether the list starts with `"`. -/
def headQuote : List Char → Bool
  | c :: _ => c == '"'
  | [] => false

/-- Whether the list contains two adjacent `"` characters. -/
def hasQQ : List Char → Bool
  | a :: b :: t => (a == '"' && b == '"') || hasQQ (b :: t)
  | _ => false

theorem hasQQ_cons (a : Char) (l : List Char) :
    hasQQ (a :: l) = ((a == '"' && headQuote l) || hasQQ l) := by
  match l with
  | [] => simp [hasQQ, headQuote]
  | b :: t => rfl

theorem hasQQ_cons_false {a : Char} {l : List Char}
    (h : hasQQ (a :: l) = false) : hasQQ l = false := by
  rw [hasQQ_cons] at h
  exact (Bool.or_eq_false_iff.mp h).2

theorem headQuote_escQuote (l : List Char) : headQuote (escQuote l) = false := by
  match l with
  | [] => rfl
  | c :: cs =>
    rw [escQuote]
    by_cases hc : c = '"'
    · simp [hc, headQuote]
    · simp [hc, headQuote]

theorem hasQQ_escQuote (l : List Char) : hasQQ (escQuote l) = false := by
  induction l with
  | nil => rfl
  | cons c cs ih =>
    rw [escQuote]
    by_cases hc : c = '"'
    · simp only [if_pos hc]
      rw [hasQQ_cons, hasQQ_cons, headQuote_escQuote, ih]
      simp
    · simp only [if_neg hc]
      rw [hasQQ_cons, headQuote_escQuote, ih]
      simp

theorem headQuote_normCRLF (l : List Char) (h : headQuote (normCRLF l) = true) :
    headQuote l = true := by
  match l with
  | [] => exact h
  | [c] => exact h
  | c :: d :: cs =>
    rw [normCRLF] at h
    by_cases hcd : c = '\r' ∧ d = '\n'
    · rw [if_pos hcd] at h
      simp [headQuote] at h
    · rwa [if_neg hcd] at h

theorem hasQQ_normCRLF : ∀ l : List Char, hasQQ l = false →
    hasQQ (normCRLF l) = false := by
  intro l
  induction l using normCRLF.induct with
  | case1 => intro h; exact h
  | case2 c => intro h; exact h
  | case3 c d cs hcd ih =>
    intro h
    rw [normCRLF, if_pos hcd, hasQQ_cons]
    have h2 : hasQQ cs = false := hasQQ_cons_false (hasQQ_cons_false h)
    rw [ih h2]
    simp
  | case4 c d cs hcd ih =>
    intro h
    rw [normCRLF, if_neg hcd, hasQQ_cons]
    have h2 : hasQQ (d :: cs) = false := hasQQ_cons_false h
    rw [ih h2]
    by_cases hc : (c == '"') = true
    · have hd : (d == '"') = false := by
        rw [hasQQ] at h
        have h3 := (Bool.or_eq_false_iff.mp h).1
        rcases Bool.and_eq_false_iff.mp h3 with h' | h'
        · exact absurd hc (by simp [h'])
        · exact h'
      have hhd : headQuote (normCRLF (d :: cs)) = false := by
        by_contra hcon
        simp only [Bool.not_eq_false] at hcon
        have := headQuote_normCRLF _ hcon
        simp [headQuote, hd] at this
      simp [hhd]
    · have hcf : (c == '"') = false := by simpa using hc
      simp [hcf]

/-- A character substitution that neither creates nor destroys `"` preserves
the absence of adjacent quotes. -/
theorem hasQQ_map (f : Char → Char) (hf : ∀ c, (f c == '"') = (c == '"'))
    (l : List Char) : hasQQ (l.map f) = hasQQ l := by
  induction l with
  | nil => rfl
  | cons c cs ih =>
    rw [List.map_cons, hasQQ_cons, hasQQ_cons, ih, hf]
    have hhead : headQuote (cs.map f) = headQuote cs := by
      match cs with
      | [] => rfl
      | d :: t => simp [headQuote, hf]
    rw [hhead]

theorem hasQQ_append_false {xs ys : List Char}
    (h : hasQQ (xs ++ ys) = false) : hasQQ xs = false ∧ hasQQ ys = false := by
  induction xs with
  | nil => exact ⟨rfl, h⟩
  | cons x xs ih =>
    rw [List.cons_append] at h
    have h2 := hasQQ_cons_false h
    rcases ih h2 with ⟨hxs, hys⟩
    refine ⟨?_, hys⟩
    rw [hasQQ_cons] at h ⊢
    rcases Bool.or_eq_false_iff.mp h with ⟨h3, _⟩
    rw [hxs]
    rcases Bool.and_eq_false_iff.mp h3 with h' | h'
    · simp [h']
    · have : headQuote xs = false := by
        match xs with
        | [] => rfl
        | y :: t =>
          simp only [List.cons_append, headQuote] at h' ⊢
          exact h'
      simp [this]

/-- Gluing two quote-pair-free lists with a non-quote character keeps them
quote-pair-free. -/
theorem hasQQ_append_sep {c : Char} (hc : (c == '"') = false)
    {xs ys : List Char} (hx : hasQQ xs = false) (hy : hasQQ ys = false) :
    hasQQ (xs ++ c :: ys) = false := by
  induction xs with
  | nil =>
    rw [List.nil_append, hasQQ_cons, hy, hc]
    simp
  | cons x xs ih =>
    rw [List.cons_append, hasQQ_cons]
    have hx2 : hasQQ xs = false := hasQQ_cons_false hx
    rw [ih hx2]
    by_cases hxq : (x == '"') = true
    · have hhead : headQuote (xs ++ c :: ys) = false := by
        match xs with
        | [] => simpa [headQuote] using hc
        | y :: t =>
          rw [hasQQ_cons] at hx
          rcases Bool.or_eq_false_iff.mp hx with ⟨h3, _⟩
          rcases Bool.and_eq_false_iff.mp h3 with h' | h'
          · exact absurd hxq (by simp [h'])
          · simpa [headQuote] using h'
      simp [hhead]
    · have hxf : (x == '"') = false := by simpa using hxq
      simp [hxf]

theorem hasQQ_joinNL :
    ∀ ls : List (List Char), (∀ x ∈ ls, hasQQ x = false) →
      hasQQ (joinNL ls) = false := by
  intro ls
  induction ls with
  | nil => intro _; rfl
  | cons x xs ih =>
    intro h
    match xs with
    | [] => exact h x (by simp)
    | y :: t =>
      rw [joinNL]
      exact hasQQ_append_sep (by simp) (h x (by simp))
        (ih (fun z hz => h z (by simp [hz])))

/-- Any contiguous substring of a quote-pair-free list is quote-pair-free. -/
theorem hasQQ_infix {u m v l : List Char} (hl : hasQQ l = false)
    (h : u ++ (m ++ v) = l) : hasQQ m = false := by
  subst h
  exact (hasQQ_append_false (hasQQ_append_false hl).2).1

/-- A quote-pair-free list admits no decomposition around `""`. -/
theorem hasQQ_decomp (a b : List Char) :
    hasQQ (a ++ '"' :: '"' :: b) = true := by
  induction a with
  | nil => simp [hasQQ]
  | cons x xs ih =>
    rw [List.cons_append, hasQQ_cons, ih]
    simp

theorem hasQQ_replicate_space_append (n : ℕ) (X : List Char)
    (h : hasQQ X = false) : hasQQ (List.replicate n ' ' ++ X) = false := by
  induction n with
  | zero => simpa using h
  | succ n ih =>
    rw [List.replicate_succ, List.cons_append, hasQQ_cons, ih]
    simp

theorem headQuote_replicate_space_append (n : ℕ) (X : List Char)
    (h : headQuote (List.replicate n ' ' ++ X) = true) :
    n = 0 ∧ headQuote X = true := by
  match n with
  | 0 => exact ⟨rfl, by simpa using h⟩
  | n + 1 =>
    rw [List.replicate_succ, List.cons_append] at h
    simp [headQuote] at h

theorem headQuote_expandTabs (col : ℕ) (l : List Char)
    (h : headQuote (expandTabsGo col l) = true) : headQuote l = true := by
  match l with
  | [] => exact h
  | c :: cs =>
    rw [expandTabsGo] at h
    by_cases hc : c = '\t'
    · rw [if_pos hc] at h
      have hn : 1 ≤ 8 - col % 8 := by omega
      rcases headQuote_replicate_space_append _ _ h with ⟨h0, _⟩
      omega
    · rw [if_neg hc] at h
      by_cases hnl : c = '\n' ∨ c = '\r'
      · rwa [if_pos hnl] at h
      · rwa [if_neg hnl] at h

theorem hasQQ_expandTabs (col : ℕ) (l : List Char) (h : hasQQ l = false) :
    hasQQ (expandTabsGo col l) = false := by
  induction l generalizing col with
  | nil => exact h
  | cons c cs ih =>
    rw [expandTabsGo]
    have h2 : hasQQ cs = false := hasQQ_cons_false h
    by_cases hc : c = '\t'
    · rw [if_pos hc]
      exact hasQQ_replicate_space_append _ _ (ih _ h2)
    · rw [if_neg hc]
      have hhead : ∀ col', (c == '"') = true →
          headQuote (expandTabsGo col' cs) = false := by
        intro col' hcq
        by_contra hcon
        simp only [Bool.not_eq_false] at hcon
        have hq := headQuote_expandTabs col' cs hcon
        rw [hasQQ_cons] at h
        rcases Bool.or_eq_false_iff.mp h with ⟨h3, _⟩
        rcases Bool.and_eq_false_iff.mp h3 with h' | h'
        · exact absurd hcq (by simp [h'])
        · rw [hq] at h'
          exact absurd h' (by simp)
      by_cases hnl : c = '\n' ∨ c = '\r'
      · rw [if_pos hnl, hasQQ_cons, ih 0 h2]
        by_cases hcq : (c == '"') = true
        · simp [hhead 0 hcq]
        · have hcf : (c == '"') = false := by simpa using hcq
          simp [hcf]
      · rw [if_neg hnl, hasQQ_cons, ih (col + 1) h2]
        by_cases hcq : (c == '"') = true
        · simp [hhead (col + 1) hcq]
        · have hcf : (c == '"') = false := by simpa using hcq
          simp [hcf]

theorem headQuote_takeLine (cs : List Char)
    (h : headQuote (takeLine cs).1 = true) : headQuote cs = true := by
  match cs with
  | [] => exact h
  | d :: t =>
    rw [takeLine] at h
    by_cases hd : d = '\r'
    · rw [if_pos hd] at h
      simp [headQuote] at h
    · rw [if_neg hd] at h
      by_cases hb : isLineBreak d = true
      · rw [if_pos hb] at h
        simp [headQuote] at h
      · rw [if_neg hb] at h
        simpa [headQuote] using h

theorem hasQQ_afterCR (cs : List Char) (h : hasQQ cs = false) :
    hasQQ (afterCR cs) = false := by
  match cs with
  | [] => exact h
  | d :: t =>
    rw [afterCR]
    by_cases hd : d = '\n'
    · rw [if_pos hd]
      exact hasQQ_cons_false h
    · rwa [if_neg hd]

theorem takeLine_hasQQ : ∀ l : List Char, hasQQ l = false →
    hasQQ (takeLine l).1 = false ∧
      ∀ r, (takeLine l).2 = some r → hasQQ r = false := by
  intro l
  induction l with
  | nil => intro _; exact ⟨rfl, by intro r h; cases h⟩
  | cons c cs ih =>
    intro h
    have h2 : hasQQ cs = false := hasQQ_cons_false h
    rw [takeLine]
    by_cases hc : c = '\r'
    · rw [if_pos hc]
      exact ⟨rfl, by
        intro r hr
        cases hr
        exact hasQQ_afterCR cs h2⟩
    · rw [if_neg hc]
      by_cases hb : isLineBreak c = true
      · rw [if_pos hb]
        exact ⟨rfl, by intro r hr; cases hr; exact h2⟩
      · rw [if_neg hb]
        rcases ih h2 with ⟨ih1, ih2⟩
        refine ⟨?_, by intro r hr; exact ih2 r hr⟩
        rw [hasQQ_cons, ih1]
        by_cases hcq : (c == '"') = true
        · have hhd : headQuote (takeLine cs).1 = false := by
            by_contra hcon
            simp only [Bool.not_eq_false] at hcon
            have hq := headQuote_takeLine cs hcon
            rw [hasQQ_cons] at h
            rcases Bool.or_eq_false_iff.mp h with ⟨h3, _⟩
            rcases Bool.and_eq_false_iff.mp h3 with h' | h'
            · exact absurd hcq (by simp [h'])
            · rw [hq] at h'
              exact absurd h' (by simp)
          simp [hhd]
        · have hcf : (c == '"') = false := by simpa using hcq
          simp [hcf]

theorem pySplitlinesGo_hasQQ : ∀ (fuel : ℕ) (l : List Char),
    hasQQ l = false → ∀ m ∈ pySplitlinesGo fuel l, hasQQ m = false := by
  intro fuel
  induction fuel with
  | zero => intro l _ m hm; simp [pySplitlinesGo] at hm
  | succ fuel ih =>
    intro l hl m hm
    match l, hm with
    | [], hm => simp [pySplitlinesGo] at hm
    | c :: cs, hm =>
      rw [pySplitlinesGo] at hm
      rcases htl : takeLine (c :: cs) with ⟨ln, ropt⟩
      rw [htl] at hm
      rcases takeLine_hasQQ (c :: cs) hl with ⟨h1, h2⟩
      rw [htl] at h1 h2
      match ropt, hm with
      | none, hm =>
        simp only [List.mem_singleton] at hm
        exact hm ▸ h1
      | some rest, hm =>
        rcases List.mem_cons.mp hm with h | h
        · exact h ▸ h1
        · exact ih rest (h2 rest rfl) m h

theorem firstChunkLen_pos (rev : List Char) (l : List Char) (h : l ≠ []) :
    1 ≤ firstChunkLen rev l := by
  match l with
  | [] => exact absurd rfl h
  | c :: cs =>
    rw [firstChunkLen]
    by_cases hws : isWsChar c = true
    · rw [if_pos hws]
      omega
    · rw [if_neg hws]
      by_cases hem : (decide (2 ≤ hyphenRunLen (c :: cs)) && lbWordPunct rev &&
          (match (c :: cs).drop (hyphenRunLen (c :: cs)) with
           | d :: _ => isWordChar d
           | [] => false) : Bool) = true
      · rw [if_pos hem]
        have : 2 ≤ hyphenRunLen (c :: cs) := by
          rcases Bool.and_eq_true_iff.mp hem with ⟨h1, _⟩
          rcases Bool.and_eq_true_iff.mp h1 with ⟨h2, _⟩
          simpa using h2
        omega
      · rw [if_neg hem]
        omega

theorem splitChunksGo_flatten : ∀ (fuel : ℕ) (rev l : List Char),
    l.length ≤ fuel → (splitChunksGo fuel rev l).flatten = l := by
  intro fuel
  induction fuel with
  | zero =>
    intro rev l hl
    have : l = [] := List.length_eq_zero.mp (Nat.le_zero.mp hl)
    simp [this, splitChunksGo]
  | succ fuel ih =>
    intro rev l hl
    match l, hl with
    | [], _ => rfl
    | c :: cs, hl =>
      rw [splitChunksGo]
      have hk : 1 ≤ firstChunkLen rev (c :: cs) :=
        firstChunkLen_pos rev (c :: cs) (by simp)
      rw [List.flatten_cons]
      rw [ih _ _ (by
        rw [List.length_drop]
        simp only [List.length_cons] at hl ⊢
        omega)]
      exact List.take_append_drop _ _

theorem hasQQ_tomlEscapeBasic (l : List Char) :
    hasQQ (tomlEscapeBasic l) = false := by
  rw [tomlEscapeBasic]
  rw [hasQQ_map _ (by
    intro c
    by_cases hc : c = '\r'
    · rw [if_pos hc, hc]
      rfl
    · rw [if_neg hc])]
  exact hasQQ_normCRLF _ (hasQQ_escQuote _)

theorem hasQQ_mungeWhitespace (p : List Char) (h : hasQQ p = false) :
    hasQQ (mungeWhitespace p) = false := by
  rw [mungeWhitespace]
  rw [hasQQ_map _ (by
    intro c
    by_cases hc : isWsChar c = true
    · rw [if_pos hc]
      have : (c == '"') = false := by
        have : isWsChar '"' = false := by decide
        by_contra hcon
        simp only [Bool.not_eq_false, beq_iff_eq] at hcon
        rw [hcon] at hc
        exact absurd hc (by simp [this])
      rw [this]
      rfl
    · rw [if_neg hc])]
  exact hasQQ_expandTabs 0 p h

theorem hasQQ_pyFill (p : List Char) (h : hasQQ p = false) :
    hasQQ (pyFill 80 p) = false := by
  rw [pyFill]
  apply hasQQ_joinNL
  intro line hline
  rw [wrapLines] at hline
  rcases wrapGo_line_infix 80 _ [] _ line hline with hmem | ⟨u, v, huv⟩
  · simp at hmem
  · have hflat : (splitChunks (mungeWhitespace p)).flatten = mungeWhitespace p := by
      rw [splitChunks]
      exact splitChunksGo_flatten _ [] _ (by omega)
    rw [hflat] at huv
    exact hasQQ_infix (hasQQ_mungeWhitespace p h) huv

theorem hasQQ_wrappedText (s : String) : hasQQ (wrappedText s).data = false := by
  rw [wrappedText]
  apply hasQQ_joinNL
  intro x hx
  rcases List.mem_map.mp hx with ⟨p, hp, hpx⟩
  rw [← hpx]
  exact hasQQ_pyFill p
    (pySplitlinesGo_hasQQ _ _ (hasQQ_tomlEscapeBasic s.data) p hp)

/-- C1: for every input string, if the escaped and word-wrapped form
contains a newline then `toml_string` emits the triple-quoted block
`"""\n<payload>\n"""` with the payload on its own lines, and every literal
triple-quote occurrence inside the emitted payload is escaped (preceded by a
backslash) — in fact the escaping pass guarantees the payload never contains
two adjacent quotes, so there is no occurrence at all; otherwise the escaped
text is wrapped in single double-quotes. -/
theorem claim_C1_toml_string_forms (s : String) :
    ((wrappedText s).data.contains '\n' = true →
      tomlString s = "\"\"\"\n" ++ wrappedText s ++ "\n\"\"\"")
    ∧ ((wrappedText s).data.contains '\n' = false →
      tomlString s = "\"" ++ wrappedText s ++ "\"")
    ∧ (∀ a b : List Char,
        (wrappedText s).data = a ++ '"' :: '"' :: '"' :: b →
        ∃ a', a = a' ++ ['\\']) := by
  refine ⟨fun h => ?_, fun h => ?_, fun a b hdec => ?_⟩
  · simp only [tomlString]
    rw [if_pos h]
  · simp only [tomlString]
    rw [if_neg (by intro hc; rw [h] at hc; exact absurd hc (by simp))]
  · exfalso
    have h1 := hasQQ_wrappedText s
    rw [hdec] at h1
    have h2 := hasQQ_decomp a ('"' :: b)
    rw [h1] at h2
    exact absurd h2 (by simp)

/-- C1 witness: `claim_C1_toml_string_forms` at a two-line and a one-line
input. -/
theorem claim_C1_witness :
    tomlString "a\nb" = "\"\"\"\n" ++ wrappedText "a\nb" ++ "\n\"\"\""
    ∧ tomlString "ab" = "\"" ++ wrappedText "ab" ++ "\"" :=
  ⟨(claim_C1_toml_string_forms "a\nb").1 (by decide),
   (claim_C1_toml_string_forms "ab").2.1 (by decide)⟩

/-- An 81-character word: no whitespace, no hyphen. -/
def w81 : List Char := List.replicate 81 'a'

/-- A 75-character word, a space, and the hyphenated word `aa-bbbb`. -/
def hyphenExample : List Char := List.replicate 75 'x' ++ (" aa-bbbb").data

set_option maxRecDepth 40000 in
/-- C3 counterexample: the input `'a' * 81` contains no whitespace (and no
hyphen), yet `textwrap.fill(·, 80)` introduces a line break inside the word,
at the 80-column boundary — so not every break falls at whitespace of the
original text. -/
theorem claim_C3_counterexample :
    w81.all (fun c => !(isWsChar c) && !(c == '-')) = true
    ∧ wrapLines 80 w81 = [List.replicate 80 'a', ['a']]
    ∧ tomlString ⟨w81⟩ =
        "\"\"\"\n" ++ ⟨List.replicate 80 'a'⟩ ++ "\na\n\"\"\"" := by decide

set_option maxRecDepth 40000 in
/-- C3 as amended: `toml_string` word-wraps each escaped paragraph with
`textwrap.fill(p, 80)`, and every emitted line is at most 80 characters
long; line breaks normally fall at whitespace, but a word longer than 80
characters is broken at the column boundary (the 81-character word becomes
an 80-character line plus a 1-character line), and a hyphenated word may be
broken just after a hyphen (`break_on_hyphens`). -/
theorem claim_C3_wrap_width (s : String) :
    (∀ p ∈ pySplitlines (tomlEscapeBasic s.data),
      ∀ line ∈ wrapLines 80 p, line.length ≤ 80)
    ∧ wrapLines 80 w81 = [List.replicate 80 'a', ['a']]
    ∧ wrapLines 80 hyphenExample =
        [List.replicate 75 'x' ++ (" aa-").data, ("bbbb").data] := by
  refine ⟨fun p _ line hline => ?_, by decide, by decide⟩
  exact wrapGo_line_length 80 (by omega) _ [] _ (by simp) line hline

set_option maxRecDepth 40000 in
/-- C3 witness: the line-length bound of `claim_C3_wrap_width` at the
81-character word's first wrapped line. -/
theorem claim_C3_witness : (List.replicate 80 'a').length ≤ 80 :=
  (claim_C3_wrap_width ⟨w81⟩).1 w81 (by decide) (List.replicate 80 'a')
    (by decide)

/-! ### The C2 claim theorems -/

/-- An API submission named "Zed Adams". -/
def subZedAdams : ApiSubmission := { name := some "Zed Adams", user_id := some 1 }

/-- An API submission named "Amy Zeta". -/
def subAmyZeta : ApiSubmission := { name := some "Amy Zeta", user_id := some 2 }

/-- C2 counterexample: in the assignment document, `cmd_get_assignments`
sorts by `(name.lower(), uid)`, not by the `"Last, First"` transform: with
"Zed Adams" and "Amy Zeta", the rendered order is Amy Zeta before Zed Adams
(lowercased first names), though the `name_lf` keys "Zeta, Amy" and
"Adams, Zed" are then in strictly descending order. -/
theorem claim_C2_counterexample :
    assignmentOrder [subZedAdams, subAmyZeta] = [subAmyZeta, subZedAdams]
    ∧ ¬ List.Pairwise (fun a b : String => pyStrLe a b = true)
        ((assignmentOrder [subZedAdams, subAmyZeta]).map
          fun s => name_lf (displayName s)) := by
  refine ⟨by decide, ?_⟩
  intro hpw
  have h1 : assignmentOrder [subZedAdams, subAmyZeta] =
      [subAmyZeta, subZedAdams] := by decide
  rw [h1, List.map_cons, List.map_cons, List.map_nil] at hpw
  have h2 := List.rel_of_pairwise_cons hpw (List.mem_singleton.mpr rfl)
  have h3 : pyStrLe (name_lf (displayName subAmyZeta))
      (name_lf (displayName subZedAdams)) = false := by decide
  rw [h2] at h3
  exact absurd h3 (by simp)

/-- C2 as amended: the quiz document (`generate_quiz_toml`) emits
`[[submission]]` blocks in an order whose `name_lf` keys are ascending,
case-sensitively (Python `sorted` over the `"Last, First"` keys, a
permutation of the API order); the assignment document
(`cmd_get_assignments`) instead sorts by the pair
(lowercased display name, stringified user id). -/
theorem claim_C2_document_order (names : List String)
    (subs : List ApiSubmission) :
    List.Sorted (quizRel (names.map name_lf)) (quizOrder names)
    ∧ List.Pairwise (fun a b : String => pyStrLe a b = true)
        ((quizOrder names).map fun i => (names.map name_lf).getD i "")
    ∧ (quizOrder names).Perm (List.range names.length)
    ∧ List.Sorted assignmentRel (assignmentOrder subs)
    ∧ (assignmentOrder subs).Perm subs := by
  refine ⟨List.sorted_insertionSort _ _, ?_, List.perm_insertionSort _ _,
    List.sorted_insertionSort _ _, List.perm_insertionSort _ _⟩
  have hs : List.Pairwise (quizRel (names.map name_lf)) (quizOrder names) :=
    List.sorted_insertionSort _ _
  exact List.Pairwise.map _ (fun i j hij => hij) hs

/-- C2 witness: `claim_C2_document_order` at the spec's example — the quiz
keys for "Jane Doe" and "Amy Adams" come out ascending ("Adams, Amy" before
"Doe, Jane"), and a two-element assignment list is sorted under the
assignment relation. -/
theorem claim_C2_witness :
    List.Pairwise (fun a b : String => pyStrLe a b = true)
      ((quizOrder ["Jane Doe", "Amy Adams"]).map
        fun i => (["Jane Doe", "Amy Adams"].map name_lf).getD i "")
    ∧ List.Sorted assignmentRel (assignmentOrder [subZedAdams, subAmyZeta]) :=
  ⟨(claim_C2_document_order ["Jane Doe", "Amy Adams"] []).2.1,
   (claim_C2_document_order [] [subZedAdams, subAmyZeta]).2.2.2.1⟩

/-! ## `parse_quiz_csv` (`__init__.py` lines 32-81) and
`generate_quiz_toml` (lines 107-158)

The CSV reader is Python standard library and out of scope; the transform
is embedded on its output, a list of rows (the header row first).  Python
exceptions (missing header, short rows, a question column in last position)
become `none`.  The source appends to the per-question lists row by row;
the per-question lists built here column by column are exactly the same
lists. -/

/-- Option-monad `mapM`, written out so that every theorem can destructure
it directly (a `none` models the Python loop raising). -/
def optMapM (g : α → Option β) : List α → Option (List β)
  | [] => some []
  | a :: l =>
    match g a with
    | none => none
    | some b =>
      match optMapM g l with
      | none => none
      | some r => some (b :: r)

/-- `re.match(r"^\d+:\s+(.*)", col_name)` and its first group: at least one
digit, a colon, at least one whitespace character, then the rest of the
line (``.`` does not cross a newline).  `\d`/`\s` taken on the character
sets Python uses for ASCII text. -/
def questionPrompt? (h : List Char) : Option String :=
  let ds := h.takeWhile Char.isDigit
  if ds.isEmpty then none
  else
    match h.drop ds.length with
    | ':' :: rest =>
      let ws := rest.takeWhile isPyStripSpace
      if ws.isEmpty then none
      else some ⟨(rest.drop ws.length).takeWhile (fun c => !(c == '\n'))⟩
    | _ => none

/-- What the header scan of `parse_quiz_csv` accumulates
(`__init__.py` lines 33-55). -/
structure HeaderInfo where
  nameCol : Option ℕ := none
  idCol : Option ℕ := none
  sisIdCol : Option ℕ := none
  qCols : List ℕ := []
  qPrompts : List String := []
  maxPoints : List PyNum := []
  deriving DecidableEq, Repr

/-- The header scan: classify each column; a question column records its
index, its prompt, and `try_int` of the next header cell
(`headers[i+1]`, an `IndexError` — `none` — when absent). -/
def scanHeaders (headers : List String) : Option HeaderInfo :=
  headers.enum.foldl
    (fun acc p =>
      acc.bind fun h =>
        if p.2 = "name" then some { h with nameCol := some p.1 }
        else if p.2 = "id" then some { h with idCol := some p.1 }
        else if p.2 = "sis_id" then some { h with sisIdCol := some p.1 }
        else
          match questionPrompt? p.2.data with
          | some prompt =>
            match headers.get? (p.1 + 1) with
            | some nxt =>
              some { h with qCols := h.qCols ++ [p.1],
                            qPrompts := h.qPrompts ++ [prompt],
                            maxPoints := h.maxPoints ++ [try_int nxt] }
            | none => none
          | none => some h)
    (some {})

/-- One data column (`row[col]` for every row); a missing column index
(`row[None]`) or a short row raises — `none` — unless there are no data
rows at all, in which case Python's row loop never indexes. -/
def column? (data : List (List String)) (c : Option ℕ) : Option (List String) :=
  optMapM (fun row =>
    match c with
    | some i => row.get? i
    | none => none) data

/-- The parsed student analysis (`parse_quiz_csv`'s returned dict). -/
structure StudentAnalysis where
  names : List String := []
  ids : List String := []
  sis_ids : List String := []
  questions : List String := []
  answers : List (List String) := []
  points : List (Option (List PyNum)) := []
  max_points : List PyNum := []
  deriving DecidableEq, Repr

/-- `parse_quiz_csv` (`__init__.py` lines 32-81): scan the header row, read
the name/id/sis_id columns and, per question, the answer column and the
`try_int` of the next column; a per-question point list with no truthy
entry (`any(p)` false — all zeros, in particular all-empty cells) collapses
to `none`. -/
def parse_quiz_csv (rows : List (List String)) : Option StudentAnalysis :=
  match rows with
  | [] => none
  | headers :: data =>
    (scanHeaders headers).bind fun h =>
    (column? data h.nameCol).bind fun names =>
    (column? data h.idCol).bind fun ids =>
    (column? data h.sisIdCol).bind fun sis =>
    (optMapM (fun q => optMapM (fun row => row.get? q) data) h.qCols).bind
      fun answers =>
    (optMapM (fun q =>
        optMapM (fun row => (row.get? (q + 1)).map try_int) data)
      h.qCols).map fun rawPoints =>
    { names := names, ids := ids, sis_ids := sis,
      questions := h.qPrompts, answers := answers,
      points := rawPoints.map fun p =>
        if p.any PyNum.truthy then some p else none,
      max_points := h.maxPoints }

/-- Python `f"{v}"` for a `try_int` value.  Integers print decimally as in
Python; the float `repr` (shortest round-trip decimal) is modelled exactly
for integral values (`n.0`) and only approximately otherwise — no claim
reaches a non-integral point value. -/
def pyNumStr : PyNum → String
  | .pInt n => toString n
  | .pFloat q =>
    if q.den = 1 then toString q.num ++ ".0"
    else toString q.num ++ "/" ++ toString q.den

/-- What `generate_quiz_toml` reads of the quiz-info dict; `none` models an
absent key. -/
structure QuizInfo where
  assignment_id : Option ℤ := none
  quiz_id : Option ℤ := none
  id : Option ℤ := none
  title : Option String := none
  description : Option String := none
  deriving Repr

/-- Python `a or b` on optional integers (`None` and `0` are falsy). -/
def pyOrZ (a b : Option ℤ) : Option ℤ :=
  match a with
  | some n => if n ≠ 0 then some n else b
  | none => b

/-- Python truthiness of a collapsed point column:
`None` and `[]` are falsy, a nonempty list truthy. -/
def pyTruthyPts : Option (List PyNum) → Bool
  | some l => !l.isEmpty
  | none => false

/-- The per-question fragment of one `[[submission]]` block
(`__init__.py` lines 152-156): the answer line, the points line only when
the collapsed point column is truthy, then a blank line.  Index accesses
are total (`getD`): the emitting loop only uses in-range indices. -/
def qFragment (qn : ℕ) (ans : String) (pts : Option (List PyNum)) (i : ℕ) :
    String :=
  "q" ++ toString (qn + 1) ++ "_answer = " ++ tomlString ans ++ "\n" ++
  (if pyTruthyPts pts then
    "q" ++ toString (qn + 1) ++ "_points = " ++
      pyNumStr ((pts.getD []).getD i (.pInt 0)) ++ "\n"
  else "") ++ "\n"

/-- One `[[submission]]` block (`__init__.py` lines 144-156). -/
def submissionBlock (sa : StudentAnalysis) (i : ℕ) : String :=
  "\n[[submission]]\nname = " ++ tomlString (sa.names.getD i "") ++
  "\nid = " ++ sa.ids.getD i "" ++ "\nsis_id = " ++ sa.sis_ids.getD i "" ++
  "\n\n" ++
  String.join ((sa.answers.zip sa.points).enum.map
    fun p => qFragment p.1 (p.2.1.getD i "") p.2.2 i)

/-- `generate_quiz_toml` (`__init__.py` lines 107-158).  `md` is the
external `markdownify` collaborator.  Submission blocks follow
`quizOrder sa.names`, the indices sorted by the `name_lf` key. -/
def generateQuizToml (md : String → String) (info : QuizInfo)
    (sa : StudentAnalysis) (prepend : List (String × String)) : String :=
  (match pyOrZ info.assignment_id info.id with
   | some n => "assignment_id = " ++ toString n ++ "\n"
   | none => "") ++
  (match pyOrZ info.quiz_id info.id with
   | some n => "quiz_id = " ++ toString n ++ "\n"
   | none => "") ++
  (match info.title with
   | some t => "title = " ++ tomlString t ++ "\n"
   | none => "") ++
  (match info.description with
   | some d => "description = " ++ tomlString (md d) ++ "\n"
   | none => "") ++
  "\n" ++
  String.join (prepend.map fun kv => kv.1 ++ " = " ++ tomlString kv.2 ++ "\n") ++
  String.join (sa.questions.enum.map fun p =>
    "\nq" ++ toString (p.1 + 1) ++ "_prompt = " ++ tomlString p.2 ++
    "\nq" ++ toString (p.1 + 1) ++ "_max_points = " ++
    pyNumStr (sa.max_points.getD p.1 (.pInt 0)) ++ "\n") ++
  String.join ((quizOrder sa.names).map fun i => submissionBlock sa i)

/-! ### C6: an all-empty point column collapses to null and emits no line -/

theorem optMapM_get? (g : α → Option β) :
    ∀ (l : List α) (r : List β), optMapM g l = some r →
      ∀ (n : ℕ) (a : α), l.get? n = some a →
        ∃ b, r.get? n = some b ∧ g a = some b := by
  intro l
  induction l with
  | nil => intro r _ n a ha; simp at ha
  | cons x xs ih =>
    intro r hr n a ha
    rw [optMapM] at hr
    rcases hx : g x with _ | b
    · rw [hx] at hr; cases hr
    · rw [hx] at hr
      rcases hxs : optMapM g xs with _ | r'
      · rw [hxs] at hr; cases hr
      · rw [hxs] at hr
        have hrr : r = b :: r' := (Option.some.inj hr).symm
        subst hrr
        match n, ha with
        | 0, ha =>
          refine ⟨b, rfl, ?_⟩
          have hax : x = a := Option.some.inj ha
          rw [← hax, hx]
        | n + 1, ha =>
          exact ih r' hxs n a ha

theorem optMapM_mem (g : α → Option β) :
    ∀ (l : List α) (r : List β), optMapM g l = some r →
      ∀ b ∈ r, ∃ a ∈ l, g a = some b := by
  intro l
  induction l with
  | nil =>
    intro r hr b hb
    rw [optMapM] at hr
    have : r = [] := (Option.some.inj hr).symm
    subst this
    simp at hb
  | cons x xs ih =>
    intro r hr b hb
    rw [optMapM] at hr
    rcases hx : g x with _ | b0
    · rw [hx] at hr; cases hr
    · rw [hx] at hr
      rcases hxs : optMapM g xs with _ | r'
      · rw [hxs] at hr; cases hr
      · rw [hxs] at hr
        have hrr : r = b0 :: r' := (Option.some.inj hr).symm
        subst hrr
        rcases List.mem_cons.mp hb with h | h
        · exact ⟨x, by simp, h ▸ hx⟩
        · rcases ih r' hxs b h with ⟨a, ha, hga⟩
          exact ⟨a, by simp [ha], hga⟩

/-- A collapsed (`none`) point column emits the answer line and a blank
line only. -/
theorem qFragment_none (qn : ℕ) (ans : String) (i : ℕ) :
    qFragment qn ans none i =
      "q" ++ toString (qn + 1) ++ "_answer = " ++ tomlString ans ++ "\n\n" := by
  apply String.ext
  have hnn : ("\n\n" : String).data = ['\n', '\n'] := rfl
  have hn : ("\n" : String).data = ['\n'] := rfl
  have he : ("" : String).data = [] := rfl
  simp [qFragment, pyTruthyPts, String.data_append, hnn, hn, he]

/-- C6: if a question's per-row points column is empty in every data row,
the parsed record's points for that question collapse to `none`; the
emitted per-question fragment for it consists of the `q<N>_answer` line and
a blank line only — no `q<N>_points` line; and in every `[[submission]]`
block of `generateQuizToml` (whose question loop `submissionBlock` maps
`qFragment` over the zipped answer/point columns), the question's entry is
exactly that answer-only fragment. -/
theorem claim_C6_empty_points_collapse (headers : List String)
    (data : List (List String)) (sa : StudentAnalysis) (hi : HeaderInfo)
    (qn q : ℕ) :
    scanHeaders headers = some hi →
    parse_quiz_csv (headers :: data) = some sa →
    hi.qCols.get? qn = some q →
    (∀ row ∈ data, row.get? (q + 1) = some "") →
    sa.points.get? qn = some none
    ∧ (∀ (ans : String) (i : ℕ), qFragment qn ans none i =
        "q" ++ toString (qn + 1) ++ "_answer = " ++ tomlString ans ++ "\n\n")
    ∧ (∀ (ansCol : List String) (i : ℕ), sa.answers.get? qn = some ansCol →
        ((sa.answers.zip sa.points).enum.map
            fun p => qFragment p.1 (p.2.1.getD i "") p.2.2 i).get? qn =
          some ("q" ++ toString (qn + 1) ++ "_answer = " ++
            tomlString (ansCol.getD i "") ++ "\n\n")) := by
  intro hsh hp hq hempty
  rw [parse_quiz_csv, hsh, Option.some_bind] at hp
  rcases h1 : column? data hi.nameCol with _ | names <;> rw [h1] at hp
  · cases hp
  rw [Option.some_bind] at hp
  rcases h2 : column? data hi.idCol with _ | ids <;> rw [h2] at hp
  · cases hp
  rw [Option.some_bind] at hp
  rcases h3 : column? data hi.sisIdCol with _ | sis <;> rw [h3] at hp
  · cases hp
  rw [Option.some_bind] at hp
  rcases h4 : optMapM (fun q => optMapM (fun row => row.get? q) data) hi.qCols
      with _ | answers <;> rw [h4] at hp
  · cases hp
  rw [Option.some_bind] at hp
  rcases h5 : optMapM (fun q =>
      optMapM (fun row => (row.get? (q + 1)).map try_int) data) hi.qCols
      with _ | rawPoints <;> rw [h5] at hp
  · cases hp
  rw [Option.map_some'] at hp
  have hsa := (Option.some.inj hp).symm
  have hptsqn : sa.points.get? qn = some none := by
    rcases optMapM_get? _ hi.qCols rawPoints h5 qn q hq with ⟨p, hpn, hgp⟩
    have hallzero : ∀ y ∈ p, y = PyNum.pInt 0 := by
      intro y hy
      rcases optMapM_mem _ data p hgp y hy with ⟨row, hrow, hval⟩
      rw [hempty row hrow] at hval
      have hte : try_int "" = y := Option.some.inj hval
      rw [← hte]
      rfl
    have hany : p.any PyNum.truthy = false := by
      rw [List.any_eq_false]
      intro y hy
      rw [hallzero y hy]
      decide
    have hpts : sa.points = rawPoints.map fun p =>
        if p.any PyNum.truthy then some p else none := by rw [hsa]
    rw [hpts, List.get?_map, hpn, Option.map_some']
    have hcond : ¬ (p.any PyNum.truthy = true) := by simp [hany]
    rw [if_neg hcond]
  refine ⟨hptsqn, fun ans i => qFragment_none qn ans i, ?_⟩
  intro ansCol i hans
  have hzip : (sa.answers.zip sa.points).get? qn = some (ansCol, none) := by
    rw [List.zip, List.get?_zipWith_eq_some]
    exact ⟨ansCol, none, hans, hptsqn, rfl⟩
  rw [List.get?_map, List.get?_enum, hzip, Option.map_some', Option.map_some']
  rw [qFragment_none]

/-- The quiz CSV fixture rows whose single points column is empty in every
data row (header cell `points`, data cells `""`). -/
def emptyPointsRows : List (List String) :=
  [["name", "id", "sis_id", "1: What is 2+2?", "points"],
   ["Jane Doe", "55", "abc123", "4", ""],
   ["Amy Adams", "77", "xyz", "9", ""]]

/-- The header info `scanHeaders` produces for `emptyPointsRows`. -/
def emptyPointsHeaderInfo : HeaderInfo :=
  { nameCol := some 0, idCol := some 1, sisIdCol := some 2, qCols := [3],
    qPrompts := ["What is 2+2?"], maxPoints := [.pInt 0] }

/-- The analysis `parse_quiz_csv` produces for `emptyPointsRows`: the point
column has collapsed to `none`. -/
def emptyPointsAnalysis : StudentAnalysis :=
  { names := ["Jane Doe", "Amy Adams"], ids := ["55", "77"],
    sis_ids := ["abc123", "xyz"], questions := ["What is 2+2?"],
    answers := [["4", "9"]], points := [none], max_points := [.pInt 0] }

/-- C6 witness: `claim_C6_empty_points_collapse` at the concrete fixture. -/
theorem claim_C6_witness :
    emptyPointsAnalysis.points.get? 0 = some none
    ∧ qFragment 0 "4" none 0 = "q1_answer = " ++ tomlString "4" ++ "\n\n" :=
  ⟨(claim_C6_empty_points_collapse emptyPointsRows.head!
      emptyPointsRows.tail emptyPointsAnalysis emptyPointsHeaderInfo 0 3
      (by decide) (by decide) (by decide) (by decide)).1,
   (claim_C6_empty_points_collapse emptyPointsRows.head!
      emptyPointsRows.tail emptyPointsAnalysis emptyPointsHeaderInfo 0 3
      (by decide) (by decide) (by decide) (by decide)).2.1 "4" 0⟩

end Canvas2Toml
